import Mathlib

/-!
Verification of the iscc-core similarity-hash engine against its
natural-language specification.

Modelling conventions:
* Python strings are modelled as lists of Unicode code points (`List Nat`);
  Python `bytes` values are lists of naturals expected to be `< 256`.
* Pure functions of the source become Lean functions; Python exceptions are
  modelled with `Option`/`Except`.
* The external Blake3 hash, the `str.lower` unicode table and the
  `collapse_text` normalizer (out-of-scope collaborators) are abstracted as
  function parameters; theorems quantify over them.
* Components of the repository that are referenced but whose module is not
  part of the excerpted source (codec, simhash, wtahash, sliding window) are
  modelled from the specification text; their doc comments say so.
-/

namespace Iscc

/-- Value of a bit string, most significant bit first. -/
def bitsToNat (l : List Bool) : Nat :=
  l.foldl (fun acc b => 2 * acc + (if b then 1 else 0)) 0

/-- The `w`-bit big-endian representation of `v % 2 ^ w`. -/
def natToBits : Nat → Nat → List Bool
  | 0, _ => []
  | w + 1, v => natToBits w (v / 2) ++ [decide (v % 2 = 1)]

/-- Eight bits of a byte, most significant first. -/
def byteToBits (b : Nat) : List Bool :=
  natToBits 8 b

/-- Bit stream of a byte string, each byte most significant bit first. -/
def bytesToBits (bs : List Nat) : List Bool :=
  (bs.map byteToBits).flatten

/-- Successive slices of length `n` of a list, the final slice possibly
shorter; mirrors `more_itertools.sliced` as used by `code_meta.py`. -/
def sliced (l : List α) (n : Nat) : List (List α) :=
  if h : l.length = 0 ∨ n = 0 then [] else l.take n :: sliced (l.drop n) n
termination_by l.length
decreasing_by
  simp only [not_or] at h
  simp only [List.length_drop]
  omega

theorem sliced_nil (n : Nat) : sliced ([] : List α) n = [] := by
  rw [sliced]
  simp

theorem sliced_eq_cons {l : List α} {n : Nat} (hl : l ≠ []) (hn : n ≠ 0) :
    sliced l n = l.take n :: sliced (l.drop n) n := by
  rw [sliced]
  simp [List.length_eq_zero, hl, hn]

theorem sliced_append {l rest : List α} {n : Nat} (hlen : l.length = n) (hn : n ≠ 0) :
    sliced (l ++ rest) n = l :: sliced rest n := by
  have hl : l ≠ [] := by
    intro h
    subst h
    simp at hlen
    exact hn hlen.symm
  have hne : l ++ rest ≠ [] := by
    simp [hl]
  rw [sliced_eq_cons hne hn, ← hlen, List.take_left, List.drop_left]

/-- Slicing the concatenation of equal-length blocks recovers the blocks. -/
theorem sliced_join {n : Nat} (hn : n ≠ 0) :
    ∀ ls : List (List α), (∀ c ∈ ls, c.length = n) → sliced ls.flatten n = ls := by
  intro ls
  induction ls with
  | nil => intro _; simp [sliced_nil]
  | cons c cs ih =>
    intro h
    rw [List.flatten_cons, sliced_append (h c (by simp)) hn]
    rw [ih (fun d hd => h d (by simp [hd]))]

theorem bitsToNat_append_bit (l : List Bool) (b : Bool) :
    bitsToNat (l ++ [b]) = 2 * bitsToNat l + (if b then 1 else 0) := by
  simp [bitsToNat, List.foldl_append]

theorem natToBits_length (w v : Nat) : (natToBits w v).length = w := by
  induction w generalizing v with
  | zero => simp [natToBits]
  | succ w ih => simp [natToBits, ih]

theorem mod_two_pow_succ (v w : Nat) : v % 2 ^ (w + 1) = 2 * (v / 2 % 2 ^ w) + v % 2 := by
  have hK : 0 < 2 ^ w := pow_pos (by norm_num) w
  have h2 : v / 2 % 2 ^ w < 2 ^ w := Nat.mod_lt _ hK
  have e1 : 2 * (v / 2) % (2 * 2 ^ w) = 2 * (v / 2 % 2 ^ w) :=
    Nat.mul_mod_mul_left 2 (v / 2) (2 ^ w)
  have e3 : v % 2 % (2 * 2 ^ w) = v % 2 := Nat.mod_eq_of_lt (by omega)
  have e4 : 2 * (v / 2 % 2 ^ w) + v % 2 < 2 * 2 ^ w := by omega
  calc v % 2 ^ (w + 1)
      = (2 * (v / 2) + v % 2) % (2 * 2 ^ w) := by
        rw [pow_succ']
        congr 1
        omega
    _ = (2 * (v / 2 % 2 ^ w) + v % 2) % (2 * 2 ^ w) := by
        rw [Nat.add_mod, e1, e3]
    _ = 2 * (v / 2 % 2 ^ w) + v % 2 := Nat.mod_eq_of_lt e4

theorem bitsToNat_natToBits (w v : Nat) : bitsToNat (natToBits w v) = v % 2 ^ w := by
  induction w generalizing v with
  | zero => simp [natToBits, bitsToNat, Nat.mod_one]
  | succ w ih =>
    rw [natToBits, bitsToNat_append_bit, ih, mod_two_pow_succ]
    rcases Nat.mod_two_eq_zero_or_one v with h | h <;> simp [h]

theorem natToBits_bitsToNat (l : List Bool) : natToBits l.length (bitsToNat l) = l := by
  induction l using List.reverseRecOn with
  | nil => simp [natToBits, bitsToNat]
  | append_singleton l b ih =>
    rw [bitsToNat_append_bit]
    simp only [List.length_append, List.length_cons, List.length_nil]
    rw [natToBits]
    have hdiv : (2 * bitsToNat l + (if b then 1 else 0)) / 2 = bitsToNat l := by
      cases b <;> simp <;> omega
    have hmod : (2 * bitsToNat l + (if b then 1 else 0)) % 2 = (if b then 1 else 0) := by
      cases b <;> simp <;> omega
    rw [hdiv, hmod, ih]
    cases b <;> simp

theorem bitsToNat_lt (l : List Bool) : bitsToNat l < 2 ^ l.length := by
  induction l using List.reverseRecOn with
  | nil => simp [bitsToNat]
  | append_singleton l b ih =>
    rw [bitsToNat_append_bit]
    simp only [List.length_append, List.length_cons, List.length_nil]
    rw [pow_succ]
    cases b <;> simp <;> omega

theorem byteToBits_length (b : Nat) : (byteToBits b).length = 8 :=
  natToBits_length 8 b

theorem bytesToBits_length (bs : List Nat) : (bytesToBits bs).length = 8 * bs.length := by
  induction bs with
  | nil => simp [bytesToBits]
  | cons b t ih =>
    simp [bytesToBits, byteToBits_length] at ih ⊢
    omega

theorem map_eq_self {α : Type _} {l : List α} {f : α → α} (h : ∀ b ∈ l, f b = b) : l.map f = l := by
  induction l with
  | nil => rfl
  | cons a t ih => simp [h a (by simp), ih (fun b hb => h b (by simp [hb]))]

/-- Byte string recovered from a bit stream, eight bits per byte. -/
def bitsToBytes (l : List Bool) : List Nat :=
  (sliced l 8).map bitsToNat

theorem bitsToBytes_bytesToBits {bs : List Nat} (h : ∀ b ∈ bs, b < 256) :
    bitsToBytes (bytesToBits bs) = bs := by
  unfold bitsToBytes bytesToBits
  rw [sliced_join (by norm_num) (bs.map byteToBits) (fun c hc => by
    obtain ⟨b, _, rfl⟩ := List.mem_map.mp hc
    exact byteToBits_length b)]
  rw [List.map_map]
  exact map_eq_self (fun b hb => by
    simp only [Function.comp_apply, byteToBits, bitsToNat_natToBits]
    exact Nat.mod_eq_of_lt (h b hb))


/-- RFC 4648 base32 alphabet as code points: `A`..`Z` then `2`..`7`. -/
def b32Alphabet : List Nat :=
  [65, 66, 67, 68, 69, 70, 71, 72, 73, 74, 75, 76, 77, 78, 79, 80, 81, 82,
   83, 84, 85, 86, 87, 88, 89, 90, 50, 51, 52, 53, 54, 55]

/-- Modelled from the spec: `encode_base32` of the codec module, which is not
part of the excerpted source (RFC 4648 base32, uppercase, no padding). -/
def encode_base32 (bs : List Nat) : List Nat :=
  (sliced (bytesToBits bs ++
      List.replicate ((5 - (bytesToBits bs).length % 5) % 5) false) 5).map
    (fun g => b32Alphabet.getD (bitsToNat g) 65)

/-- Value of one base32 character; `none` outside the alphabet. -/
def b32Val (c : Nat) : Option Nat :=
  if c ∈ b32Alphabet then some (b32Alphabet.indexOf c) else none

/-- Character-wise base32 lookup of a whole string. -/
def b32Vals : List Nat → Option (List Nat)
  | [] => some []
  | c :: t =>
    match b32Val c, b32Vals t with
    | some v, some vs => some (v :: vs)
    | _, _ => none

/-- Byte string encoded by a bit stream whose trailing non-byte bits are
discarded. -/
def dropTailBits (bits : List Bool) : List Nat :=
  bitsToBytes (bits.take (bits.length - bits.length % 8))

/-- Modelled from the spec: `decode_base32` of the codec module; fails on a
character outside the alphabet, surplus trailing bits are discarded. -/
def decode_base32 (s : List Nat) : Option (List Nat) :=
  (b32Vals s).map (fun vals => dropTailBits ((vals.map (natToBits 5)).flatten))

/-- Code points of the text `ISCC:`. -/
def isccHeaderCp : List Nat := [73, 83, 67, 67, 58]

/-- ASCII upper-casing of a code point. -/
def toUpperCp (c : Nat) : Nat :=
  if 97 ≤ c ∧ c ≤ 122 then c - 32 else c

/-- Whitespace test for a code point (ASCII fragment). -/
def isSpaceCp (c : Nat) : Bool :=
  c == 9 || c == 10 || c == 11 || c == 12 || c == 13 || c == 32

/-- Modelled from the spec: `clean` of the codec module - dashes and
whitespace are ignored, input is case-insensitive, an optional `ISCC:`
scheme prefix is removed. -/
def clean (s : List Nat) : List Nat :=
  if (((s.filter (fun c => !((c == 45) || isSpaceCp c))).map toUpperCp).take 5) = isccHeaderCp
  then ((s.filter (fun c => !((c == 45) || isSpaceCp c))).map toUpperCp).drop 5
  else (s.filter (fun c => !((c == 45) || isSpaceCp c))).map toUpperCp

theorem b32Vals_map {l : List α} {g : α → Nat} {h : α → Nat}
    (hc : ∀ x ∈ l, b32Val (g x) = some (h x)) :
    b32Vals (l.map g) = some (l.map h) := by
  induction l with
  | nil => rfl
  | cons a t ih =>
    simp only [List.map_cons, b32Vals, hc a (by simp),
      ih (fun x hx => hc x (by simp [hx]))]

theorem b32_char_roundtrip : ∀ v < 32, b32Val (b32Alphabet.getD v 65) = some v := by
  decide

theorem b32_char_mem (v : Nat) : b32Alphabet.getD v 65 ∈ b32Alphabet := by
  by_cases h : v < 32
  · rw [List.getD_eq_getElem _ _ (by simpa [b32Alphabet] using h)]
    exact List.getElem_mem _
  · rw [List.getD_eq_default _ _ (by simp [b32Alphabet]; omega)]
    decide

theorem sliced_length_mem {n : Nat} (hn : n ≠ 0) :
    ∀ N (l : List α), l.length = N → n ∣ N → ∀ c ∈ sliced l n, c.length = n := by
  intro N
  induction N using Nat.strong_induction_on with
  | _ N ih =>
    intro l hlen hdvd c hc
    by_cases hl : l = []
    · subst hl
      simp [sliced_nil] at hc
    · rw [sliced_eq_cons hl hn] at hc
      have hpos : 0 < l.length := List.length_pos.mpr hl
      have hge : n ≤ N := Nat.le_of_dvd (hlen ▸ hpos) hdvd
      rcases List.mem_cons.mp hc with rfl | hc
      · simp [List.length_take]
        omega
      · exact ih (N - n) (by omega) _ (by simp [List.length_drop, hlen])
          (Nat.dvd_sub' hdvd dvd_rfl) c hc

theorem flatten_sliced {n : Nat} (hn : n ≠ 0) :
    ∀ N (l : List α), l.length = N → (sliced l n).flatten = l := by
  intro N
  induction N using Nat.strong_induction_on with
  | _ N ih =>
    intro l hlen
    by_cases hl : l = []
    · subst hl
      simp [sliced_nil]
    · rw [sliced_eq_cons hl hn, List.flatten_cons]
      have hpos : 0 < l.length := List.length_pos.mpr hl
      rw [ih (N - n) (by omega) _ (by simp [List.length_drop, hlen])]
      exact List.take_append_drop n l

theorem decode_encode_base32 {bs : List Nat} (h : ∀ b ∈ bs, b < 256) :
    decode_base32 (encode_base32 bs) = some bs := by
  unfold encode_base32 decode_base32
  have hbl : (bytesToBits bs).length = 8 * bs.length := bytesToBits_length bs
  have hlenp : (bytesToBits bs ++
      List.replicate ((5 - (bytesToBits bs).length % 5) % 5) false).length =
      (bytesToBits bs).length + (5 - (bytesToBits bs).length % 5) % 5 := by
    simp
  have hdvd : 5 ∣ (bytesToBits bs ++
      List.replicate ((5 - (bytesToBits bs).length % 5) % 5) false).length := by
    rw [hlenp]
    omega
  have hmem : ∀ c ∈ sliced (bytesToBits bs ++
      List.replicate ((5 - (bytesToBits bs).length % 5) % 5) false) 5, c.length = 5 :=
    sliced_length_mem (by norm_num) _ _ rfl hdvd
  rw [b32Vals_map (fun g hg => by
    have h5 : g.length = 5 := hmem g hg
    have hv : bitsToNat g < 32 := by
      have hlt := bitsToNat_lt g
      rw [h5] at hlt
      norm_num at hlt
      exact hlt
    exact b32_char_roundtrip _ hv)]
  simp only [Option.map_some']
  congr 1
  rw [List.map_map]
  have hmapid : (sliced (bytesToBits bs ++
      List.replicate ((5 - (bytesToBits bs).length % 5) % 5) false) 5).map
        (natToBits 5 ∘ bitsToNat) = sliced (bytesToBits bs ++
      List.replicate ((5 - (bytesToBits bs).length % 5) % 5) false) 5 :=
    map_eq_self (fun g hg => by
      have h5 : g.length = 5 := hmem g hg
      simp only [Function.comp_apply]
      rw [← h5, natToBits_bitsToNat])
  rw [hmapid, flatten_sliced (by norm_num) _ _ rfl]
  unfold dropTailBits
  have hmod : (bytesToBits bs ++
      List.replicate ((5 - (bytesToBits bs).length % 5) % 5) false).length % 8 =
      (5 - (bytesToBits bs).length % 5) % 5 := by
    rw [hlenp, hbl]
    omega
  rw [hmod, hlenp]
  have hsub : (bytesToBits bs).length + (5 - (bytesToBits bs).length % 5) % 5 -
      (5 - (bytesToBits bs).length % 5) % 5 = (bytesToBits bs).length := by
    omega
  rw [hsub, List.take_left]
  exact bitsToBytes_bytesToBits h

theorem clean_of_alphabet {s : List Nat} (h : ∀ c ∈ s, c ∈ b32Alphabet) :
    clean s = s := by
  have hkeep : ∀ c ∈ b32Alphabet, (!((c == 45) || isSpaceCp c)) = true ∧ toUpperCp c = c := by
    decide
  have hfil : s.filter (fun c => !((c == 45) || isSpaceCp c)) = s :=
    List.filter_eq_self.mpr (fun c hc => (hkeep c (h c hc)).1)
  have hmap : s.map toUpperCp = s :=
    map_eq_self (fun c hc => (hkeep c (h c hc)).2)
  unfold clean
  rw [hfil, hmap]
  have hno : s.take 5 ≠ isccHeaderCp := by
    intro habs
    have h58 : (58 : Nat) ∈ s.take 5 := by
      rw [habs]
      decide
    have : (58 : Nat) ∈ b32Alphabet := h 58 (List.mem_of_mem_take h58)
    simp [b32Alphabet] at this
  simp [hno]

theorem encode_base32_mem_alphabet (bs : List Nat) :
    ∀ c ∈ encode_base32 bs, c ∈ b32Alphabet := by
  intro c hc
  unfold encode_base32 at hc
  obtain ⟨g, _, rfl⟩ := List.mem_map.mp hc
  exact b32_char_mem _


/-- Modelled from the spec: variable-length nibble encoding of one header
field (section 6, binary form): a value below 8 occupies one nibble, larger
values emit a continuation nibble `8 + v % 8` followed by the encoding of
`v / 8`. -/
def encodeVarnibble (v : Nat) : List Nat :=
  if v < 8 then [v] else (8 + v % 8) :: encodeVarnibble (v / 8)
termination_by v
decreasing_by
  omega

/-- Decoding of one variable-length nibble field, returning the value and the
remaining nibbles. -/
def decodeVarnibble : List Nat → Option (Nat × List Nat)
  | [] => none
  | n :: rest =>
    if n < 8 then some (n, rest)
    else
      match decodeVarnibble rest with
      | some (d, r) => some ((n - 8) + 8 * d, r)
      | none => none

theorem decodeVarnibble_encode (v : Nat) (rest : List Nat) :
    decodeVarnibble (encodeVarnibble v ++ rest) = some (v, rest) := by
  induction v using Nat.strong_induction_on generalizing rest with
  | _ v ih =>
    rw [encodeVarnibble]
    by_cases h : v < 8
    · simp [h, decodeVarnibble]
    · simp only [if_neg h, List.cons_append]
      have h8 : ¬(8 + v % 8 < 8) := by omega
      simp only [decodeVarnibble, if_neg h8]
      rw [ih (v / 8) (by omega)]
      simp only [Option.some.injEq, Prod.mk.injEq]
      refine ⟨by omega, trivial⟩

theorem encodeVarnibble_lt16 (v : Nat) : ∀ x ∈ encodeVarnibble v, x < 16 := by
  induction v using Nat.strong_induction_on with
  | _ v ih =>
    rw [encodeVarnibble]
    by_cases h : v < 8
    · simp [h]
      omega
    · simp only [if_neg h]
      intro x hx
      rcases List.mem_cons.mp hx with rfl | hx
      · omega
      · exact ih (v / 8) (by omega) x hx

/-- Packing of a nibble stream into bytes, high nibble first. -/
def nibblesToBytes : List Nat → List Nat
  | hi :: lo :: rest => (16 * hi + lo) :: nibblesToBytes rest
  | [hi] => [16 * hi]
  | [] => []

/-- Nibble stream of a byte string, high nibble first. -/
def bytesToNibbles (bs : List Nat) : List Nat :=
  (bs.map (fun b => [b / 16, b % 16])).flatten

theorem bytesToNibbles_append (a b : List Nat) :
    bytesToNibbles (a ++ b) = bytesToNibbles a ++ bytesToNibbles b := by
  simp [bytesToNibbles]

theorem bytesToNibbles_length (bs : List Nat) :
    (bytesToNibbles bs).length = 2 * bs.length := by
  induction bs with
  | nil => rfl
  | cons b t ih =>
    simp [bytesToNibbles] at ih ⊢
    omega

theorem nibblesToBytes_bytesToNibbles (bs : List Nat) :
    nibblesToBytes (bytesToNibbles bs) = bs := by
  induction bs with
  | nil => rfl
  | cons b t ih =>
    have hcons : bytesToNibbles (b :: t) = b / 16 :: b % 16 :: bytesToNibbles t := by
      simp [bytesToNibbles]
    rw [hcons, nibblesToBytes, ih]
    congr 1
    omega

theorem bytesToNibbles_nibblesToBytes :
    ∀ N (l : List Nat), l.length = N → (∀ x ∈ l, x < 16) → l.length % 2 = 0 →
      bytesToNibbles (nibblesToBytes l) = l := by
  intro N
  induction N using Nat.strong_induction_on with
  | _ N ih =>
    intro l hlen hlt hev
    match l with
    | [] => rfl
    | [hi] => simp at hev
    | hi :: lo :: rest =>
      have hhi : hi < 16 := hlt hi (by simp)
      have hlo : lo < 16 := hlt lo (by simp)
      rw [nibblesToBytes]
      have hcons : bytesToNibbles ((16 * hi + lo) :: nibblesToBytes rest) =
          (16 * hi + lo) / 16 :: (16 * hi + lo) % 16 :: bytesToNibbles (nibblesToBytes rest) := by
        simp [bytesToNibbles]
      rw [hcons, ih (N - 2) (by simp at hlen; omega) rest (by simp at hlen; omega)
        (fun x hx => hlt x (by simp [hx])) (by simp at hev; omega)]
      have h1 : (16 * hi + lo) / 16 = hi := by omega
      have h2 : (16 * hi + lo) % 16 = lo := by omega
      rw [h1, h2]

/-- The four header fields of a code as a nibble stream. -/
def headerNibbles (mt st vs ln : Nat) : List Nat :=
  encodeVarnibble mt ++ encodeVarnibble st ++ encodeVarnibble vs ++ encodeVarnibble ln

/-- Modelled from the spec: `write_header` of the codec module - the four
fields as variable-length nibbles, padded with one zero nibble to an even
count, packed two nibbles per byte. -/
def write_header (mt st vs ln : Nat) : List Nat :=
  nibblesToBytes (if (headerNibbles mt st vs ln).length % 2 = 1
    then headerNibbles mt st vs ln ++ [0]
    else headerNibbles mt st vs ln)

/-- Modelled from the spec: `read_header` of the codec module - reads the four
header fields from the nibble stream, skips the zero padding nibble when the
field nibbles are odd in number, and returns the remaining bytes as the body.
Header fields are returned raw; enum interpretation is left to the accessors
of `Code` (`models.py`). -/
def read_header (data : List Nat) : Option (Nat × Nat × Nat × Nat × List Nat) :=
  match decodeVarnibble (bytesToNibbles data) with
  | none => none
  | some (mt, r1) =>
    match decodeVarnibble r1 with
    | none => none
    | some (st, r2) =>
      match decodeVarnibble r2 with
      | none => none
      | some (vs, r3) =>
        match decodeVarnibble r3 with
        | none => none
        | some (ln, r4) =>
          if ((bytesToNibbles data).length - r4.length) % 2 = 1 then
            if r4.headD 1 = 0 ∧ (r4.drop 1).length % 2 = 0 then
              some (mt, st, vs, ln, nibblesToBytes (r4.drop 1))
            else none
          else
            if r4.length % 2 = 0 then some (mt, st, vs, ln, nibblesToBytes r4) else none

theorem read_write_header (mt st vs ln : Nat) (body : List Nat) :
    read_header (write_header mt st vs ln ++ body) = some (mt, st, vs, ln, body) := by
  have hlt : ∀ x ∈ (if (headerNibbles mt st vs ln).length % 2 = 1
      then headerNibbles mt st vs ln ++ [0] else headerNibbles mt st vs ln), x < 16 := by
    intro x hx
    have hmem : x ∈ headerNibbles mt st vs ln ∨ x = 0 := by
      by_cases hp : (headerNibbles mt st vs ln).length % 2 = 1
      · rw [if_pos hp] at hx
        rcases List.mem_append.mp hx with h | h
        · exact Or.inl h
        · simp at h
          exact Or.inr h
      · rw [if_neg hp] at hx
        exact Or.inl hx
    rcases hmem with h | rfl
    · unfold headerNibbles at h
      simp only [List.mem_append] at h
      rcases h with ((h | h) | h) | h <;> exact encodeVarnibble_lt16 _ _ h
    · omega
  have hevpad : (if (headerNibbles mt st vs ln).length % 2 = 1
      then headerNibbles mt st vs ln ++ [0] else headerNibbles mt st vs ln).length % 2 = 0 := by
    by_cases hp : (headerNibbles mt st vs ln).length % 2 = 1
    · simp [if_pos hp]
      omega
    · simp [if_neg hp]
      omega
  have hwh : bytesToNibbles (write_header mt st vs ln) =
      (if (headerNibbles mt st vs ln).length % 2 = 1
        then headerNibbles mt st vs ln ++ [0] else headerNibbles mt st vs ln) := by
    unfold write_header
    exact bytesToNibbles_nibblesToBytes _ _ rfl hlt hevpad
  unfold read_header
  rw [bytesToNibbles_append, hwh]
  by_cases hp : (headerNibbles mt st vs ln).length % 2 = 1
  · rw [if_pos hp]
    have hassoc : (headerNibbles mt st vs ln ++ [0]) ++ bytesToNibbles body =
        encodeVarnibble mt ++ (encodeVarnibble st ++ (encodeVarnibble vs ++
          (encodeVarnibble ln ++ ((0 : Nat) :: bytesToNibbles body)))) := by
      unfold headerNibbles
      simp [List.append_assoc]
    rw [hassoc]
    simp only [decodeVarnibble_encode]
    have hcond : ((encodeVarnibble mt ++ (encodeVarnibble st ++ (encodeVarnibble vs ++
        (encodeVarnibble ln ++ ((0 : Nat) :: bytesToNibbles body))))).length -
        ((0 : Nat) :: bytesToNibbles body).length) % 2 = 1 := by
      simp only [List.length_append, List.length_cons]
      unfold headerNibbles at hp
      simp only [List.length_append] at hp
      omega
    rw [if_pos hcond]
    rw [if_pos (by
      constructor
      · rfl
      · simp only [List.drop_succ_cons, List.drop_zero, bytesToNibbles_length]
        omega)]
    simp only [List.drop_succ_cons, List.drop_zero]
    rw [nibblesToBytes_bytesToNibbles]
  · rw [if_neg hp]
    have hassoc : headerNibbles mt st vs ln ++ bytesToNibbles body =
        encodeVarnibble mt ++ (encodeVarnibble st ++ (encodeVarnibble vs ++
          (encodeVarnibble ln ++ bytesToNibbles body))) := by
      unfold headerNibbles
      simp [List.append_assoc]
    rw [hassoc]
    simp only [decodeVarnibble_encode]
    have hcond : ¬(((encodeVarnibble mt ++ (encodeVarnibble st ++ (encodeVarnibble vs ++
        (encodeVarnibble ln ++ bytesToNibbles body)))).length -
        (bytesToNibbles body).length) % 2 = 1) := by
      simp only [List.length_append]
      unfold headerNibbles at hp
      simp only [List.length_append] at hp
      omega
    rw [if_neg hcond]
    rw [if_pos (by rw [bytesToNibbles_length]; omega)]
    rw [nibblesToBytes_bytesToNibbles]


theorem paddedHeaderNibbles_lt16 (mt st vs ln : Nat) :
    ∀ x ∈ (if (headerNibbles mt st vs ln).length % 2 = 1
      then headerNibbles mt st vs ln ++ [0] else headerNibbles mt st vs ln), x < 16 := by
  intro x hx
  have hmem : x ∈ headerNibbles mt st vs ln ∨ x = 0 := by
    by_cases hp : (headerNibbles mt st vs ln).length % 2 = 1
    · rw [if_pos hp] at hx
      rcases List.mem_append.mp hx with h | h
      · exact Or.inl h
      · simp at h
        exact Or.inr h
    · rw [if_neg hp] at hx
      exact Or.inl hx
  rcases hmem with h | rfl
  · unfold headerNibbles at h
    simp only [List.mem_append] at h
    rcases h with ((h | h) | h) | h <;> exact encodeVarnibble_lt16 _ _ h
  · omega

theorem nibblesToBytes_lt256 :
    ∀ N (l : List Nat), l.length = N → (∀ x ∈ l, x < 16) →
      ∀ b ∈ nibblesToBytes l, b < 256 := by
  intro N
  induction N using Nat.strong_induction_on with
  | _ N ih =>
    intro l hlen hlt b hb
    match l with
    | [] => simp [nibblesToBytes] at hb
    | [hi] =>
      rw [nibblesToBytes] at hb
      have := hlt hi (by simp)
      simp at hb
      omega
    | hi :: lo :: rest =>
      have hhi : hi < 16 := hlt hi (by simp)
      have hlo : lo < 16 := hlt lo (by simp)
      rw [nibblesToBytes] at hb
      rcases List.mem_cons.mp hb with rfl | hb
      · omega
      · exact ih (N - 2) (by simp at hlen; omega) rest (by simp at hlen; omega)
          (fun x hx => hlt x (by simp [hx])) b hb

theorem write_header_lt256 (mt st vs ln : Nat) :
    ∀ b ∈ write_header mt st vs ln, b < 256 := by
  unfold write_header
  exact nibblesToBytes_lt256 _ _ rfl (paddedHeaderNibbles_lt16 mt st vs ln)

/-- Value object for an ISCC (`models.py` `Code`): the four raw header fields
and the body bytes. -/
structure Code where
  mt : Nat
  st : Nat
  vs : Nat
  ln : Nat
  body : List Nat
deriving DecidableEq

/-- `Code.header_bytes` (`models.py`): packed header prefix of the code. -/
def Code.headerBytes (c : Code) : List Nat :=
  write_header c.mt c.st c.vs c.ln

/-- `Code.bytes` (`models.py`): raw bytes of the code, header plus body. -/
def Code.bytes (c : Code) : List Nat :=
  c.headerBytes ++ c.body

/-- `Code.code` (`models.py`): standard base32 representation of the code. -/
def Code.code (c : Code) : List Nat :=
  encode_base32 c.bytes

/-- ASCII lower-casing of a code point. -/
def toLowerCp (c : Nat) : Nat :=
  if 65 ≤ c ∧ c ≤ 90 then c + 32 else c

/-- `Code.uri` (`models.py`): the text `iscc:` followed by the lower-cased
base32 representation. -/
def Code.uri (c : Code) : List Nat :=
  [105, 115, 99, 99, 58] ++ (Code.code c).map toLowerCp

/-- Construction of a `Code` from its string form (`models.py`
`Code.__init__` on `str` input): clean, base32-decode, read the header. -/
def Code.ofString (s : List Nat) : Option Code :=
  (decode_base32 (clean s)).bind fun bs =>
    (read_header bs).map fun t => ⟨t.1, t.2.1, t.2.2.1, t.2.2.2.1, t.2.2.2.2⟩

/-- C1: for every Code built from a header tuple and a body of bytes,
parsing the base32 text produced by the `code` property with the `Code`
constructor yields an equal Code. -/
theorem code_string_roundtrip (c : Code) (h : ∀ b ∈ c.body, b < 256) :
    Code.ofString (Code.code c) = some c := by
  unfold Code.ofString Code.code
  rw [clean_of_alphabet (encode_base32_mem_alphabet _)]
  have hbytes : ∀ b ∈ Code.bytes c, b < 256 := by
    intro b hb
    unfold Code.bytes Code.headerBytes at hb
    rcases List.mem_append.mp hb with hb | hb
    · exact write_header_lt256 _ _ _ _ b hb
    · exact h b hb
  unfold Code.bytes Code.headerBytes at hbytes ⊢
  rw [decode_encode_base32 hbytes, Option.some_bind, read_write_header,
    Option.map_some']

/-- C1 witness: round trip at a concrete code. -/
theorem code_string_roundtrip_witness :
    Code.ofString (Code.code ⟨0, 0, 0, 1, [1, 2, 3, 253, 254, 255, 7, 8]⟩) =
      some ⟨0, 0, 0, 1, [1, 2, 3, 253, 254, 255, 7, 8]⟩ :=
  code_string_roundtrip _ (by decide)

/-- Bit sequence of the body (`models.py` stores `_body` as a bitarray). -/
def Code.bodyBits (c : Code) : List Bool :=
  bytesToBits c.body

/-- `bitarray.util.count_xor`: popcount of the elementwise XOR of two bit
arrays; the `ValueError` raised on a length mismatch is modelled as `none`. -/
def count_xor (a b : List Bool) : Option Nat :=
  if a.length = b.length
  then some ((a.zipWith (fun p q => p != q) b).countP (fun v => v))
  else none

/-- `Code.__xor__` (`models.py`): hamming distance via `count_xor` of the two
body bitarrays; headers are not consulted. -/
def Code.xorDist (a b : Code) : Option Nat :=
  count_xor a.bodyBits b.bodyBits

/-- Number of bit positions at which the two bodies differ. -/
def hammingDist (a b : Code) : Nat :=
  (List.range a.bodyBits.length).countP
    (fun j => a.bodyBits.getD j false != b.bodyBits.getD j false)

theorem countP_zipWith_bne :
    ∀ a b : List Bool, a.length = b.length →
      ((a.zipWith (fun p q => p != q) b).countP (fun v => v)) =
        (List.range a.length).countP (fun j => a.getD j false != b.getD j false) := by
  intro a
  induction a with
  | nil =>
    intro b h
    rfl
  | cons x t ih =>
    intro b h
    match b with
    | [] => simp at h
    | y :: u =>
      have hlen : t.length = u.length := by simp at h; omega
      simp only [List.zipWith_cons_cons, List.countP_cons, List.length_cons,
        List.range_succ_eq_map, List.countP_map]
      rw [ih u hlen]
      simp only [List.getD_cons_succ, List.getD_cons_zero]
      refine congrArg₂ (fun (m : Nat) (k : Nat) => m + k) ?_ rfl
      apply List.countP_congr
      intro j hj
      simp [Function.comp, List.getD_cons_succ]

/-- C4 (amended): the XOR operator returns the popcount of the XOR of the two
bodies whenever the bodies have equal bit-length, and is defined exactly in
that case - the headers are not checked. -/
theorem code_xor_hamming (a b : Code) :
    ((a.xorDist b).isSome ↔ a.bodyBits.length = b.bodyBits.length) ∧
      (a.bodyBits.length = b.bodyBits.length → a.xorDist b = some (hammingDist a b)) := by
  constructor
  · unfold Code.xorDist count_xor
    by_cases h : a.bodyBits.length = b.bodyBits.length <;> simp [h]
  · intro h
    unfold Code.xorDist count_xor hammingDist
    rw [if_pos h, countP_zipWith_bne _ _ h]

/-- C4 witness: hamming distance of two concrete codes with equal body
length. -/
theorem code_xor_hamming_witness :
    Code.xorDist ⟨0, 0, 0, 1, [3]⟩ ⟨0, 0, 0, 1, [1]⟩ =
      some (hammingDist ⟨0, 0, 0, 1, [3]⟩ ⟨0, 0, 0, 1, [1]⟩) :=
  (code_xor_hamming _ _).2 (by decide)

/-- C4 counterexample: the XOR operator is defined on two codes whose headers
disagree in both maintype and subtype, refuting the claim that it is defined
only when the headers agree. -/
theorem code_xor_header_mismatch_defined :
    Code.xorDist ⟨0, 0, 0, 0, [255]⟩ ⟨3, 1, 0, 0, [0]⟩ = some 8 ∧
      (Code.mt ⟨0, 0, 0, 0, [255]⟩ ≠ Code.mt ⟨3, 1, 0, 0, [0]⟩ ∧
        Code.st ⟨0, 0, 0, 0, [255]⟩ ≠ Code.st ⟨3, 1, 0, 0, [0]⟩) := by
  decide

/-- C5 counterexample: the URI of a concrete code is not the text `ISCC:`
followed by the uppercase base32 form - the code uses lowercase. -/
theorem code_uri_not_uppercase :
    Code.uri ⟨0, 0, 0, 1, [0, 0, 0, 0, 0, 0, 0, 0]⟩ ≠
      isccHeaderCp ++ Code.code ⟨0, 0, 0, 1, [0, 0, 0, 0, 0, 0, 0, 0]⟩ := by
  decide

/-- C5 (amended): the URI form is the lowercase text `iscc:` followed by the
lower-cased unpadded base32 encoding of header plus body, and it contains no
uppercase character at all. -/
theorem code_uri_lowercase (c : Code) :
    Code.uri c = [105, 115, 99, 99, 58] ++
        (encode_base32 (write_header c.mt c.st c.vs c.ln ++ c.body)).map toLowerCp ∧
      ∀ ch ∈ Code.uri c, ¬(65 ≤ ch ∧ ch ≤ 90) := by
  refine ⟨rfl, ?_⟩
  intro ch hch
  unfold Code.uri at hch
  rcases List.mem_append.mp hch with hch | hch
  · simp at hch
    rcases hch with rfl | rfl | rfl | rfl | rfl <;> omega
  · obtain ⟨x, hx, rfl⟩ := List.mem_map.mp hch
    have hxa : x ∈ b32Alphabet := encode_base32_mem_alphabet _ x hx
    have : ∀ y ∈ b32Alphabet, ¬(65 ≤ toLowerCp y ∧ toLowerCp y ≤ 90) := by decide
    exact this x hxa

/-- C5 witness: the amended description at a concrete code and character. -/
theorem code_uri_lowercase_witness :
    ¬(65 ≤ (105 : Nat) ∧ (105 : Nat) ≤ 90) :=
  (code_uri_lowercase ⟨0, 0, 0, 0, [65]⟩).2 105
    (List.mem_append.mpr (Or.inl (by decide)))


/-- UTF-8 encoding of one code point (1 to 4 bytes). -/
def utf8EncodeChar (c : Nat) : List Nat :=
  if c < 128 then [c]
  else if c < 2048 then [192 + c / 64, 128 + c % 64]
  else if c < 65536 then [224 + c / 4096, 128 + c / 64 % 64, 128 + c % 64]
  else [240 + c / 262144, 128 + c / 4096 % 64, 128 + c / 64 % 64, 128 + c % 64]

/-- UTF-8 encoding of a string of code points. -/
def utf8Encode (s : List Nat) : List Nat :=
  (s.map utf8EncodeChar).flatten

/-- Python `bytes.decode` with the `ignore` error handler, as a validating
UTF-8 parser: a well-formed sequence is decoded to its code point, anything
invalid or truncated is skipped one byte at a time.  CPython may skip a
maximal subpart instead of a single byte; both behaviours consume at least
one byte per emitted character, which is the only property used here.
Continuation bytes are read with `getD` and default `256`, which fails every
range check, so a truncated sequence is skipped as well. -/
def utf8DecodeIgnore : List Nat → List Nat
  | [] => []
  | b :: rest =>
    if b < 128 then
      b :: utf8DecodeIgnore rest
    else if 194 ≤ b ∧ b ≤ 223 then
      if 128 ≤ rest.getD 0 256 ∧ rest.getD 0 256 ≤ 191 then
        ((b - 192) * 64 + (rest.getD 0 256 - 128)) :: utf8DecodeIgnore (rest.drop 1)
      else utf8DecodeIgnore rest
    else if 224 ≤ b ∧ b ≤ 239 then
      if ((b = 224 ∧ 160 ≤ rest.getD 0 256 ∧ rest.getD 0 256 ≤ 191) ∨
          (b = 237 ∧ 128 ≤ rest.getD 0 256 ∧ rest.getD 0 256 ≤ 159) ∨
          (b ≠ 224 ∧ b ≠ 237 ∧ 128 ≤ rest.getD 0 256 ∧ rest.getD 0 256 ≤ 191)) ∧
          (128 ≤ rest.getD 1 256 ∧ rest.getD 1 256 ≤ 191) then
        ((b - 224) * 4096 + (rest.getD 0 256 - 128) * 64 + (rest.getD 1 256 - 128)) ::
          utf8DecodeIgnore (rest.drop 2)
      else utf8DecodeIgnore rest
    else if 240 ≤ b ∧ b ≤ 244 then
      if ((b = 240 ∧ 144 ≤ rest.getD 0 256 ∧ rest.getD 0 256 ≤ 191) ∨
          (b = 244 ∧ 128 ≤ rest.getD 0 256 ∧ rest.getD 0 256 ≤ 143) ∨
          (b ≠ 240 ∧ b ≠ 244 ∧ 128 ≤ rest.getD 0 256 ∧ rest.getD 0 256 ≤ 191)) ∧
          (128 ≤ rest.getD 1 256 ∧ rest.getD 1 256 ≤ 191) ∧
          (128 ≤ rest.getD 2 256 ∧ rest.getD 2 256 ≤ 191) then
        ((b - 240) * 262144 + (rest.getD 0 256 - 128) * 4096 +
            (rest.getD 1 256 - 128) * 64 + (rest.getD 2 256 - 128)) ::
          utf8DecodeIgnore (rest.drop 3)
      else utf8DecodeIgnore rest
    else utf8DecodeIgnore rest
termination_by l => l.length
decreasing_by
  all_goals simp only [List.length_cons, List.length_drop]
  all_goals omega

/-- Python `str.strip()`: whitespace removed at both ends (ASCII fragment of
the Unicode whitespace table). -/
def pyStrip (s : List Nat) : List Nat :=
  ((s.dropWhile isSpaceCp).reverse.dropWhile isSpaceCp).reverse

/-- `trim_text` (`code_meta.py`): trim text such that its UTF-8 encoded size
does not exceed `nbytes`. -/
def trim_text (text : List Nat) (nbytes : Nat) : List Nat :=
  pyStrip (utf8DecodeIgnore ((utf8Encode text).take nbytes))



theorem utf8EncodeChar_length_le (c : Nat) : (utf8EncodeChar c).length ≤ 4 := by
  unfold utf8EncodeChar
  split_ifs <;> simp

theorem utf8EncodeChar_length_one {c : Nat} (h : c < 128) :
    (utf8EncodeChar c).length = 1 := by
  unfold utf8EncodeChar
  rw [if_pos h]
  rfl

theorem utf8EncodeChar_length_le_two {c : Nat} (h : c < 2048) :
    (utf8EncodeChar c).length ≤ 2 := by
  unfold utf8EncodeChar
  split_ifs <;> first
    | simp
    | omega

theorem utf8EncodeChar_length_le_three {c : Nat} (h : c < 65536) :
    (utf8EncodeChar c).length ≤ 3 := by
  unfold utf8EncodeChar
  split_ifs <;> first
    | simp
    | omega

theorem utf8Encode_cons (c : Nat) (s : List Nat) :
    utf8Encode (c :: s) = utf8EncodeChar c ++ utf8Encode s := by
  simp [utf8Encode]


theorem utf8Len_decodeIgnore_le :
    ∀ N (l : List Nat), l.length = N → (utf8Encode (utf8DecodeIgnore l)).length ≤ l.length := by
  intro N
  induction N using Nat.strong_induction_on with
  | _ N ih =>
    intro l hlen
    match l with
    | [] => simp [utf8DecodeIgnore, utf8Encode]
    | b :: rest =>
      have hrest : rest.length < N := by
        simp at hlen
        omega
      rw [utf8DecodeIgnore]
      by_cases h1 : b < 128
      · rw [if_pos h1, utf8Encode_cons]
        have e1 : (utf8EncodeChar b).length = 1 := utf8EncodeChar_length_one h1
        have hr := ih rest.length hrest rest rfl
        simp only [List.length_append, List.length_cons]
        omega
      · rw [if_neg h1]
        by_cases h2 : 194 ≤ b ∧ b ≤ 223
        · rw [if_pos h2]
          by_cases hc : 128 ≤ rest.getD 0 256 ∧ rest.getD 0 256 ≤ 191
          · rw [if_pos hc, utf8Encode_cons]
            have hne : 1 ≤ rest.length := by
              by_contra hx
              have h0 : rest.getD 0 256 = 256 := List.getD_eq_default _ _ (by omega)
              omega
            have hb : (utf8EncodeChar ((b - 192) * 64 + (rest.getD 0 256 - 128))).length ≤ 2 :=
              utf8EncodeChar_length_le_two (by omega)
            have hr := ih (rest.drop 1).length (by simp only [List.length_drop]; omega)
              (rest.drop 1) rfl
            simp only [List.length_append, List.length_cons, List.length_drop] at *
            omega
          · rw [if_neg hc]
            have hr := ih rest.length hrest rest rfl
            simp only [List.length_cons]
            omega
        · rw [if_neg h2]
          by_cases h3 : 224 ≤ b ∧ b ≤ 239
          · rw [if_pos h3]
            by_cases hc : ((b = 224 ∧ 160 ≤ rest.getD 0 256 ∧ rest.getD 0 256 ≤ 191) ∨
                (b = 237 ∧ 128 ≤ rest.getD 0 256 ∧ rest.getD 0 256 ≤ 159) ∨
                (b ≠ 224 ∧ b ≠ 237 ∧ 128 ≤ rest.getD 0 256 ∧ rest.getD 0 256 ≤ 191)) ∧
                (128 ≤ rest.getD 1 256 ∧ rest.getD 1 256 ≤ 191)
            · rw [if_pos hc, utf8Encode_cons]
              have hne : 2 ≤ rest.length := by
                by_contra hx
                have h0 : rest.getD 1 256 = 256 := List.getD_eq_default _ _ (by omega)
                omega
              have hg0 : rest.getD 0 256 ≤ 191 := by
                rcases hc.1 with h | h | h <;> omega
              have hb : (utf8EncodeChar ((b - 224) * 4096 + (rest.getD 0 256 - 128) * 64 +
                  (rest.getD 1 256 - 128))).length ≤ 3 :=
                utf8EncodeChar_length_le_three (by omega)
              have hr := ih (rest.drop 2).length (by simp only [List.length_drop]; omega)
                (rest.drop 2) rfl
              simp only [List.length_append, List.length_cons, List.length_drop] at *
              omega
            · rw [if_neg hc]
              have hr := ih rest.length hrest rest rfl
              simp only [List.length_cons]
              omega
          · rw [if_neg h3]
            by_cases h4 : 240 ≤ b ∧ b ≤ 244
            · rw [if_pos h4]
              by_cases hc : ((b = 240 ∧ 144 ≤ rest.getD 0 256 ∧ rest.getD 0 256 ≤ 191) ∨
                  (b = 244 ∧ 128 ≤ rest.getD 0 256 ∧ rest.getD 0 256 ≤ 143) ∨
                  (b ≠ 240 ∧ b ≠ 244 ∧ 128 ≤ rest.getD 0 256 ∧ rest.getD 0 256 ≤ 191)) ∧
                  (128 ≤ rest.getD 1 256 ∧ rest.getD 1 256 ≤ 191) ∧
                  (128 ≤ rest.getD 2 256 ∧ rest.getD 2 256 ≤ 191)
              · rw [if_pos hc, utf8Encode_cons]
                have hne : 3 ≤ rest.length := by
                  by_contra hx
                  have h0 : rest.getD 2 256 = 256 := List.getD_eq_default _ _ (by omega)
                  omega
                have hb := utf8EncodeChar_length_le ((b - 240) * 262144 +
                  (rest.getD 0 256 - 128) * 4096 + (rest.getD 1 256 - 128) * 64 +
                  (rest.getD 2 256 - 128))
                have hr := ih (rest.drop 3).length (by simp only [List.length_drop]; omega)
                  (rest.drop 3) rfl
                simp only [List.length_append, List.length_cons, List.length_drop] at *
                omega
              · rw [if_neg hc]
                have hr := ih rest.length hrest rest rfl
                simp only [List.length_cons]
                omega
            · rw [if_neg h4]
              have hr := ih rest.length hrest rest rfl
              simp only [List.length_cons]
              omega


theorem utf8Encode_append (a b : List Nat) :
    utf8Encode (a ++ b) = utf8Encode a ++ utf8Encode b := by
  simp [utf8Encode]

theorem utf8Len_reverse (l : List Nat) :
    (utf8Encode l.reverse).length = (utf8Encode l).length := by
  simp [utf8Encode, List.length_flatten, List.map_reverse, List.sum_reverse]

theorem utf8Len_dropWhile_le (p : Nat → Bool) (l : List Nat) :
    (utf8Encode (l.dropWhile p)).length ≤ (utf8Encode l).length := by
  conv_rhs => rw [← List.takeWhile_append_dropWhile p l]
  rw [utf8Encode_append]
  simp

theorem utf8Len_pyStrip_le (s : List Nat) :
    (utf8Encode (pyStrip s)).length ≤ (utf8Encode s).length := by
  unfold pyStrip
  calc (utf8Encode ((s.dropWhile isSpaceCp).reverse.dropWhile isSpaceCp).reverse).length
      = (utf8Encode ((s.dropWhile isSpaceCp).reverse.dropWhile isSpaceCp)).length :=
        utf8Len_reverse _
    _ ≤ (utf8Encode (s.dropWhile isSpaceCp).reverse).length := utf8Len_dropWhile_le _ _
    _ = (utf8Encode (s.dropWhile isSpaceCp)).length := utf8Len_reverse _
    _ ≤ (utf8Encode s).length := utf8Len_dropWhile_le _ _

/-- C10: `trim_text` is total - even when the byte cut falls inside a
multibyte UTF-8 sequence - and the UTF-8 encoding of its result is at most
`nbytes` bytes long. -/
theorem trim_text_utf8_length_le (text : List Nat) (nbytes : Nat) :
    (utf8Encode (trim_text text nbytes)).length ≤ nbytes := by
  unfold trim_text
  have h1 := utf8Len_pyStrip_le (utf8DecodeIgnore ((utf8Encode text).take nbytes))
  have h2 := utf8Len_decodeIgnore_le ((utf8Encode text).take nbytes).length
    ((utf8Encode text).take nbytes) rfl
  have h3 : ((utf8Encode text).take nbytes).length ≤ nbytes := by
    simp [List.length_take]
  omega


/-- Modelled from the spec: configuration constant `meta_trim_title` of
section 3; the options module is not part of the excerpted source. -/
def meta_trim_title : Nat := 128

/-- Modelled from the spec: configuration constant `meta_trim_extra`. -/
def meta_trim_extra : Nat := 4096

/-- Modelled from the spec: configuration constant `meta_ngram_size_title`. -/
def meta_ngram_size_title : Nat := 4

/-- Modelled from the spec: configuration constant
`meta_ngram_size_extra_text`. -/
def meta_ngram_size_extra_text : Nat := 3

/-- Modelled from the spec: configuration constant
`meta_ngram_size_extra_binary`. -/
def meta_ngram_size_extra_binary : Nat := 3

/-- Modelled from the spec: `sliding_window` of the utils module - successive
width-sized windows of a sequence, at least one window even when the sequence
is shorter than the width. -/
def sliding_window (seq : List α) (width : Nat) : List (List α) :=
  (List.range (max (seq.length + 1 - width) 1)).map (fun i => (seq.drop i).take width)

/-- Modelled from the spec: `similarity_hash` of the simhash module (section
4.1) - for every bit position the output bit is set exactly when strictly more
than half of the input digests have that bit set; the output has the byte
length of the first digest. -/
def similarity_hash (hash_digests : List (List Nat)) : List Nat :=
  (List.range (hash_digests.headD []).length).map (fun p =>
    bitsToNat ((List.range 8).map (fun q =>
      decide (hash_digests.length <
        2 * hash_digests.countP (fun d => (bytesToBits d).getD (8 * p + q) false)))))

/-- The `description`/`extra` argument of the Meta-Code functions: Python
`None`, `str` or `bytes`; `other` stands for a value of any other type. -/
inductive Extra where
  | null : Extra
  | str : List Nat → Extra
  | bytes : List Nat → Extra
  | other : Extra
deriving DecidableEq

/-- Error taxonomy of the generators as surfaced to callers (section 6). -/
inductive Err where
  | invalidBitLength : Err
  | invalidInput : Err
deriving DecidableEq

/-- `more_itertools.interleave` of two sequences: alternate elements until
the shorter sequence is exhausted. -/
def interleave2 (xs ys : List α) : List α :=
  ((xs.zip ys).map (fun p => [p.1, p.2])).flatten

/-- The title half of `soft_hash_meta_v0` (`code_meta.py` lines 143-146):
simhash of the Blake3 digests of the 4-gram sliding windows of the
lower-cased title.  The external Blake3 hash and the Python `str.lower`
table are parameters. -/
def metaTitleHash (blake3 : List Nat → List Nat) (pyLower : List Nat → List Nat)
    (title : List Nat) : List Nat :=
  similarity_hash ((sliding_window (pyLower title) meta_ngram_size_title).map
    (fun s => blake3 (utf8Encode s)))

/-- The extra half for a text extra (`code_meta.py` lines 157-160). -/
def metaExtraTextHash (blake3 : List Nat → List Nat) (pyLower : List Nat → List Nat)
    (s : List Nat) : List Nat :=
  similarity_hash ((sliding_window (pyLower s) meta_ngram_size_extra_text).map
    (fun t => blake3 (utf8Encode t)))

/-- The extra half for a binary extra (`code_meta.py` lines 153-155). -/
def metaExtraBytesHash (blake3 : List Nat → List Nat) (b : List Nat) : List Nat :=
  similarity_hash ((sliding_window b meta_ngram_size_extra_binary).map blake3)

/-- `soft_hash_meta_v0` (`code_meta.py`): 256-bit similarity hash of asset
metadata.  For `None`, the empty string or empty bytes the title simhash is
returned; for a non-empty extra the first halves of the title and extra
simhashes are interleaved in 4-byte chunks; any other type raises
(`InvalidInput`). -/
def soft_hash_meta_v0 (blake3 : List Nat → List Nat) (pyLower : List Nat → List Nat)
    (title : List Nat) (extra : Extra) : Except Err (List Nat) :=
  if extra = .null ∨ extra = .str [] ∨ extra = .bytes [] then
    .ok (metaTitleHash blake3 pyLower title)
  else
    match extra with
    | .bytes b =>
      .ok (List.flatten (interleave2
        (sliced ((metaTitleHash blake3 pyLower title).take 16) 4)
        (sliced ((metaExtraBytesHash blake3 b).take 16) 4)))
    | .str s =>
      .ok (List.flatten (interleave2
        (sliced ((metaTitleHash blake3 pyLower title).take 16) 4)
        (sliced ((metaExtraTextHash blake3 pyLower s).take 16) 4)))
    | _ => .error Err.invalidInput

/-- The 32-byte digest the claim describes for a non-empty extra: the first
16 bytes of the title hash and of the extra hash, interleaved in 4-byte
chunks, title chunk first, alternating. -/
def metaInterleaveSpec (t e : List Nat) : List Nat :=
  t.take 4 ++ e.take 4 ++ (t.drop 4).take 4 ++ (e.drop 4).take 4 ++
  (t.drop 8).take 4 ++ (e.drop 8).take 4 ++ (t.drop 12).take 4 ++ (e.drop 12).take 4

theorem sliding_window_ne_nil (seq : List α) (width : Nat) :
    sliding_window seq width ≠ [] := by
  unfold sliding_window
  simp [List.range_eq_nil]

theorem similarity_hash_length (ds : List (List Nat)) :
    (similarity_hash ds).length = (ds.headD []).length := by
  unfold similarity_hash
  simp

theorem metaTitleHash_length {blake3 pyLower : List Nat → List Nat}
    (h32 : ∀ x, (blake3 x).length = 32) (title : List Nat) :
    (metaTitleHash blake3 pyLower title).length = 32 := by
  unfold metaTitleHash
  rw [similarity_hash_length]
  obtain ⟨w, ws, hw⟩ := List.exists_cons_of_ne_nil
    (sliding_window_ne_nil (pyLower title) meta_ngram_size_title)
  rw [hw]
  simp [h32]

theorem metaExtraTextHash_length {blake3 pyLower : List Nat → List Nat}
    (h32 : ∀ x, (blake3 x).length = 32) (s : List Nat) :
    (metaExtraTextHash blake3 pyLower s).length = 32 := by
  unfold metaExtraTextHash
  rw [similarity_hash_length]
  obtain ⟨w, ws, hw⟩ := List.exists_cons_of_ne_nil
    (sliding_window_ne_nil (pyLower s) meta_ngram_size_extra_text)
  rw [hw]
  simp [h32]

theorem metaExtraBytesHash_length {blake3 : List Nat → List Nat}
    (h32 : ∀ x, (blake3 x).length = 32) (b : List Nat) :
    (metaExtraBytesHash blake3 b).length = 32 := by
  unfold metaExtraBytesHash
  rw [similarity_hash_length]
  obtain ⟨w, ws, hw⟩ := List.exists_cons_of_ne_nil
    (sliding_window_ne_nil b meta_ngram_size_extra_binary)
  rw [hw]
  simp [h32]


theorem sliced4_of_len16 {u : List Nat} (h : u.length = 16) :
    sliced u 4 = [u.take 4, (u.drop 4).take 4, (u.drop 8).take 4, (u.drop 12).take 4] := by
  have e1 : u ≠ [] := by
    intro hx
    subst hx
    simp at h
  have e2 : u.drop 4 ≠ [] := by
    intro hx
    have := congrArg List.length hx
    simp [h] at this
  have e3 : u.drop 8 ≠ [] := by
    intro hx
    have := congrArg List.length hx
    simp [h] at this
  have e4 : u.drop 12 ≠ [] := by
    intro hx
    have := congrArg List.length hx
    simp [h] at this
  rw [sliced_eq_cons e1 (by norm_num)]
  rw [sliced_eq_cons e2 (by norm_num)]
  simp only [List.drop_drop]
  norm_num
  rw [sliced_eq_cons e3 (by norm_num)]
  simp only [List.drop_drop]
  norm_num
  rw [sliced_eq_cons e4 (by norm_num)]
  simp only [List.drop_drop]
  norm_num
  have e5 : u.drop 16 = [] := by
    apply List.eq_nil_of_length_eq_zero
    simp [h]
  rw [e5, sliced_nil]

theorem metaInterleaveSpec_length {t e : List Nat} (ht : t.length = 32) (he : e.length = 32) :
    (metaInterleaveSpec t e).length = 32 := by
  unfold metaInterleaveSpec
  simp [ht, he]

theorem interleave_sliced_spec {t e : List Nat} (ht : t.length = 32) (he : e.length = 32) :
    List.flatten (interleave2 (sliced (t.take 16) 4) (sliced (e.take 16) 4)) =
      metaInterleaveSpec t e := by
  have ht16 : (t.take 16).length = 16 := by simp [ht]
  have he16 : (e.take 16).length = 16 := by simp [he]
  rw [sliced4_of_len16 ht16, sliced4_of_len16 he16]
  unfold interleave2 metaInterleaveSpec
  simp [List.take_take, List.drop_take, List.append_assoc]

/-- C2: for every name and non-empty description, `soft_hash_meta_v0` returns
the 32-byte digest interleaving the first 16 bytes of the title simhash and
the first 16 bytes of the extra simhash in 4-byte chunks, title chunk first;
for `None`, the empty string or empty bytes it returns the 256-bit (32-byte)
title simhash unchanged. -/
theorem soft_hash_meta_v0_spec (blake3 pyLower : List Nat → List Nat)
    (h32 : ∀ x, (blake3 x).length = 32) (title : List Nat) :
    (∀ extra, (extra = Extra.null ∨ extra = Extra.str [] ∨ extra = Extra.bytes []) →
      soft_hash_meta_v0 blake3 pyLower title extra =
          .ok (metaTitleHash blake3 pyLower title) ∧
        (metaTitleHash blake3 pyLower title).length = 32) ∧
    (∀ s, s ≠ [] →
      soft_hash_meta_v0 blake3 pyLower title (Extra.str s) =
          .ok (metaInterleaveSpec (metaTitleHash blake3 pyLower title)
            (metaExtraTextHash blake3 pyLower s)) ∧
        (metaInterleaveSpec (metaTitleHash blake3 pyLower title)
          (metaExtraTextHash blake3 pyLower s)).length = 32) ∧
    (∀ b, b ≠ [] →
      soft_hash_meta_v0 blake3 pyLower title (Extra.bytes b) =
          .ok (metaInterleaveSpec (metaTitleHash blake3 pyLower title)
            (metaExtraBytesHash blake3 b)) ∧
        (metaInterleaveSpec (metaTitleHash blake3 pyLower title)
          (metaExtraBytesHash blake3 b)).length = 32) := by
  refine ⟨?_, ?_, ?_⟩
  · intro extra hx
    refine ⟨?_, metaTitleHash_length h32 title⟩
    unfold soft_hash_meta_v0
    rw [if_pos hx]
  · intro s hs
    refine ⟨?_, metaInterleaveSpec_length (metaTitleHash_length h32 title)
      (metaExtraTextHash_length h32 s)⟩
    unfold soft_hash_meta_v0
    rw [if_neg (by simp [hs])]
    show Except.ok (List.flatten (interleave2
      (sliced ((metaTitleHash blake3 pyLower title).take 16) 4)
      (sliced ((metaExtraTextHash blake3 pyLower s).take 16) 4))) = _
    rw [interleave_sliced_spec (metaTitleHash_length h32 title)
      (metaExtraTextHash_length h32 s)]
  · intro b hb
    refine ⟨?_, metaInterleaveSpec_length (metaTitleHash_length h32 title)
      (metaExtraBytesHash_length h32 b)⟩
    unfold soft_hash_meta_v0
    rw [if_neg (by simp [hb])]
    show Except.ok (List.flatten (interleave2
      (sliced ((metaTitleHash blake3 pyLower title).take 16) 4)
      (sliced ((metaExtraBytesHash blake3 b).take 16) 4))) = _
    rw [interleave_sliced_spec (metaTitleHash_length h32 title)
      (metaExtraBytesHash_length h32 b)]

/-- C2 witness: the interleave equation at a concrete title, a concrete
non-empty text extra and a concrete 32-byte hash function. -/
theorem soft_hash_meta_v0_spec_witness :
    soft_hash_meta_v0 (fun x => List.replicate 32 0) (fun l => l) [97] (Extra.str [98]) =
        .ok (metaInterleaveSpec
          (metaTitleHash (fun x => List.replicate 32 0) (fun l => l) [97])
          (metaExtraTextHash (fun x => List.replicate 32 0) (fun l => l) [98])) ∧
      (metaInterleaveSpec
        (metaTitleHash (fun x => List.replicate 32 0) (fun l => l) [97])
        (metaExtraTextHash (fun x => List.replicate 32 0) (fun l => l) [98])).length = 32 :=
  (soft_hash_meta_v0_spec (fun x => List.replicate 32 0) (fun l => l)
    (fun x => by simp) [97]).2.1 [98] (by decide)


/-- Modelled from the spec: the length code of a unit code is
`bits / 32 - 1` (section 6, unit length encoding). -/
def encode_length (bits : Nat) : Nat := bits / 32 - 1

/-- Modelled from the spec: `encode_component` of the codec module - validates
that the requested bit length is a multiple of 32 within [32, 256] (the
`encode_length` check, surfaced as `InvalidBitLength`), then base32-encodes
the packed header followed by the truncated digest. -/
def encode_component (mtype stype version bit_length : Nat) (digest : List Nat) :
    Except Err (List Nat) :=
  if bit_length % 32 = 0 ∧ 32 ≤ bit_length ∧ bit_length ≤ 256 then
    .ok (encode_base32 (write_header mtype stype version (encode_length bit_length) ++
      digest.take (bit_length / 8)))
  else .error Err.invalidBitLength

/-- Exception-propagating sequencing of two fallible steps. -/
def exBind (x : Except Err α) (f : α → Except Err β) : Except Err β :=
  match x with
  | .error e => .error e
  | .ok a => f a

theorem exBind_ok (a : α) (f : α → Except Err β) : exBind (.ok a) f = f a := rfl

/-- Result of `gen_meta_code_v0`: the ISCC string and the metahash.  The
presentation-only fields of the returned schema object (name, description)
are not modelled. -/
structure MetaResult where
  iscc : List Nat
  metahash : List Nat
deriving DecidableEq

/-- Lowercase hex digit of a nibble value. -/
def hexDigitCp (n : Nat) : Nat := if n < 10 then 48 + n else 87 + n

/-- Lowercase hex string of a byte string (Python `hexdigest`). -/
def bytesToHex (bs : List Nat) : List Nat :=
  (bs.map (fun b => [hexDigitCp (b / 16), hexDigitCp (b % 16)])).flatten

/-- Tail of `gen_meta_code_v0` (`code_meta.py` lines 90-111) after the
normalization of name and description: soft hash, Meta-Code component with
MT=META ST=NONE VS=V0, `ISCC:` prefix, Blake3 metahash of the payload. -/
def genMetaFinish (blake3 pyLower : List Nat → List Nat)
    (name1 payload : List Nat) (descNorm : Extra) (bits : Nat) :
    Except Err MetaResult :=
  exBind (soft_hash_meta_v0 blake3 pyLower name1 descNorm) (fun digest =>
    exBind (encode_component 0 0 0 bits digest) (fun mc =>
      .ok ⟨isccHeaderCp ++ mc, bytesToHex (blake3 payload)⟩))

/-- `gen_meta_code_v0` (`code_meta.py`): normalize the name (collapse, trim to
128 UTF-8 bytes), branch on the description - `None` or the empty string use
the name as the metahash payload, a non-empty string is collapsed and trimmed
to 4096 UTF-8 bytes with the raw string bytes as payload, a bytes value is
truncated to 4096 bytes with the raw bytes as payload (also when empty), and
any other type raises `InvalidInput`.  The external Blake3, `str.lower` and
the out-of-scope `collapse_text` normalizer are parameters. -/
def gen_meta_code_v0 (blake3 pyLower collapseText : List Nat → List Nat)
    (name : List Nat) (description : Extra) (bits : Nat) : Except Err MetaResult :=
  match description with
  | .null => genMetaFinish blake3 pyLower (trim_text (collapseText name) meta_trim_title)
      (utf8Encode (trim_text (collapseText name) meta_trim_title)) Extra.null bits
  | .str s =>
    if s = [] then
      genMetaFinish blake3 pyLower (trim_text (collapseText name) meta_trim_title)
        (utf8Encode (trim_text (collapseText name) meta_trim_title)) Extra.null bits
    else
      genMetaFinish blake3 pyLower (trim_text (collapseText name) meta_trim_title)
        (utf8Encode s) (Extra.str (trim_text (collapseText s) meta_trim_extra)) bits
  | .bytes b =>
    genMetaFinish blake3 pyLower (trim_text (collapseText name) meta_trim_title)
      b (Extra.bytes (b.take meta_trim_extra)) bits
  | .other => .error Err.invalidInput

/-- Python `zip(*sigs)` has as many columns as the shortest tuple; zero for
the empty collection. -/
def minArity : List (List Int) → Nat
  | [] => 0
  | t :: ts => ts.foldl (fun m u => min m u.length) t.length

/-- Column-wise sums `[sum(col) for col in zip(*sigs)]` of
`hash_video_v0` (`code_content_video.py` line 66). -/
def colSums (sigs : List (List Int)) : List Int :=
  (List.range (minArity sigs)).map (fun j => (sigs.map (fun t => t.getD j 0)).sum)

/-- `hash_video_v0` (`code_content_video.py`): deduplicate the frame
signatures (Python set semantics), sum column-wise, WTA-hash.  The WTA hash,
whose permutation-table module is not part of the excerpted source, is a
parameter. -/
def hash_video_v0 (wtahash : List Int → List Nat)
    (frame_signatures : List (List Int)) : List Nat :=
  wtahash (colSums frame_signatures.dedup)

/-- `gen_video_code_v0` (`code_content_video.py`): Video-Code component with
MT=CONTENT (2), ST=VIDEO (3), VS=V0 over the video hash. -/
def gen_video_code_v0 (wtahash : List Int → List Nat)
    (frame_signatures : List (List Int)) (bits : Nat) : Except Err (List Nat) :=
  encode_component 2 3 0 bits (hash_video_v0 wtahash frame_signatures)


theorem gen_meta_str_eq (blake3 pyLower collapseText : List Nat → List Nat)
    (name s : List Nat) (bits : Nat) :
    gen_meta_code_v0 blake3 pyLower collapseText name (Extra.str s) bits =
      if s = [] then
        genMetaFinish blake3 pyLower (trim_text (collapseText name) meta_trim_title)
          (utf8Encode (trim_text (collapseText name) meta_trim_title)) Extra.null bits
      else
        genMetaFinish blake3 pyLower (trim_text (collapseText name) meta_trim_title)
          (utf8Encode s) (Extra.str (trim_text (collapseText s) meta_trim_extra)) bits := rfl

theorem soft_hash_meta_v0_isOk (blake3 pyLower : List Nat → List Nat) (title : List Nat)
    (extra : Extra) (h : extra ≠ Extra.other) :
    ∃ d, soft_hash_meta_v0 blake3 pyLower title extra = .ok d := by
  unfold soft_hash_meta_v0
  by_cases hx : extra = .null ∨ extra = .str [] ∨ extra = .bytes []
  · rw [if_pos hx]
    exact ⟨_, rfl⟩
  · rw [if_neg hx]
    rcases extra with _ | s | b | _
    · simp at hx
    · exact ⟨_, rfl⟩
    · exact ⟨_, rfl⟩
    · exact absurd rfl h

/-- The metahash payload as the amended claim states it: the raw bytes for a
bytes description (also when empty), the UTF-8 encoding of a non-empty string
description, the UTF-8 encoding of the normalized name otherwise. -/
def metaPayloadSpec (collapseText : List Nat → List Nat) (name : List Nat) :
    Extra → List Nat
  | .null => utf8Encode (trim_text (collapseText name) meta_trim_title)
  | .str s =>
    if s = [] then utf8Encode (trim_text (collapseText name) meta_trim_title)
    else utf8Encode s
  | .bytes b => b
  | .other => []

theorem genMetaFinish_metahash (blake3 pyLower : List Nat → List Nat)
    (name1 payload : List Nat) (descNorm : Extra) (bits : Nat)
    (hd : descNorm ≠ Extra.other)
    (hbits : bits % 32 = 0 ∧ 32 ≤ bits ∧ bits ≤ 256) :
    ∃ r, genMetaFinish blake3 pyLower name1 payload descNorm bits = .ok r ∧
      r.metahash = bytesToHex (blake3 payload) := by
  obtain ⟨d, hdig⟩ := soft_hash_meta_v0_isOk blake3 pyLower name1 descNorm hd
  unfold genMetaFinish
  rw [hdig, exBind_ok]
  unfold encode_component
  rw [if_pos hbits, exBind_ok]
  exact ⟨_, rfl, rfl⟩

/-- C3 (amended): for every valid bit length and every description of type
`None`, `str` or `bytes`, the generation succeeds and the metahash is the hex
Blake3 digest of the payload described by `metaPayloadSpec`. -/
theorem gen_meta_metahash (blake3 pyLower collapseText : List Nat → List Nat)
    (name : List Nat) (description : Extra) (bits : Nat)
    (hdesc : description ≠ Extra.other)
    (hbits : bits % 32 = 0 ∧ 32 ≤ bits ∧ bits ≤ 256) :
    ∃ r, gen_meta_code_v0 blake3 pyLower collapseText name description bits = .ok r ∧
      r.metahash = bytesToHex (blake3 (metaPayloadSpec collapseText name description)) := by
  have hfin : ∀ name1 payload descNorm, descNorm ≠ Extra.other →
      ∃ r, genMetaFinish blake3 pyLower name1 payload descNorm bits = .ok r ∧
        r.metahash = bytesToHex (blake3 payload) :=
    fun name1 payload descNorm hd =>
      genMetaFinish_metahash blake3 pyLower name1 payload descNorm bits hd hbits
  rcases description with _ | s | b | _
  · exact hfin _ _ Extra.null (by simp)
  · rw [gen_meta_str_eq]
    by_cases hs : s = []
    · subst hs
      rw [if_pos rfl]
      exact hfin _ _ Extra.null (by simp)
    · rw [if_neg hs]
      obtain ⟨r, hr, hm⟩ := hfin (trim_text (collapseText name) meta_trim_title)
        (utf8Encode s) (Extra.str (trim_text (collapseText s) meta_trim_extra)) (by simp)
      refine ⟨r, hr, ?_⟩
      rw [hm]
      have hps : metaPayloadSpec collapseText name (Extra.str s) =
          if s = [] then utf8Encode (trim_text (collapseText name) meta_trim_title)
          else utf8Encode s := rfl
      rw [hps, if_neg hs]
  · exact hfin _ _ (Extra.bytes (b.take meta_trim_extra)) (by simp)
  · exact absurd rfl hdesc

/-- C3 counterexample: with the identity in place of Blake3, name `a` and the
empty bytes description, the generation succeeds but the metahash is the hex
digest of the empty bytes, not of the UTF-8 encoded name as the claim states
for inputs that supply no non-empty description. -/
theorem gen_meta_metahash_empty_bytes_cex :
    ∃ r, gen_meta_code_v0 (fun l => l) (fun l => l) (fun l => l) [97]
        (Extra.bytes []) 64 = .ok r ∧
      r.metahash ≠ bytesToHex (utf8Encode (trim_text [97] meta_trim_title)) := by
  have hdec : utf8DecodeIgnore [97] = [97] := by
    simp [utf8DecodeIgnore]
  have htrim : trim_text [97] meta_trim_title = [97] := by
    unfold trim_text
    have h1 : (utf8Encode [97]).take meta_trim_title = [97] := rfl
    rw [h1, hdec]
    rfl
  obtain ⟨r, hr, hm⟩ := genMetaFinish_metahash (fun l => l) (fun l => l)
    (trim_text ((fun l : List Nat => l) [97]) meta_trim_title) []
    (Extra.bytes (([] : List Nat).take meta_trim_extra)) 64 (by simp) (by norm_num)
  refine ⟨r, hr, ?_⟩
  rw [hm, htrim]
  decide

theorem foldl_min_const {k : Nat} :
    ∀ ts : List (List Int), (∀ u ∈ ts, u.length = k) →
      ts.foldl (fun m u => min m u.length) k = k := by
  intro ts
  induction ts with
  | nil => intro _; rfl
  | cons u us ih =>
    intro h
    rw [List.foldl_cons]
    have hu : u.length = k := h u (by simp)
    rw [hu, min_self]
    exact ih (fun v hv => h v (by simp [hv]))

theorem minArity_const {k : Nat} (l : List (List Int))
    (hall : ∀ t ∈ l, t.length = k) (hne : l ≠ []) : minArity l = k := by
  match l with
  | [] => exact absurd rfl hne
  | t :: ts =>
    show ts.foldl (fun m u => min m u.length) t.length = k
    have ht : t.length = k := hall t (by simp)
    rw [ht]
    exact foldl_min_const ts (fun u hu => hall u (by simp [hu]))

theorem colSums_of_const {k : Nat} {l : List (List Int)}
    (hall : ∀ t ∈ l, t.length = k) (hne : l ≠ []) :
    colSums l = (List.range k).map (fun j => (l.map (fun t => t.getD j 0)).sum) := by
  unfold colSums
  rw [minArity_const l hall hne]

theorem colSums_perm {k : Nat} {a b : List (List Int)} (hp : a.Perm b)
    (ha : ∀ t ∈ a, t.length = k) (hb : ∀ t ∈ b, t.length = k) :
    colSums a = colSums b := by
  rcases eq_or_ne a [] with rfl | hane
  · have hbn : b = [] := List.eq_nil_of_length_eq_zero (by simpa using hp.length_eq.symm)
    rw [hbn]
  · have hbne : b ≠ [] := by
      intro hx
      subst hx
      exact hane (List.eq_nil_of_length_eq_zero (by simpa using hp.length_eq))
    rw [colSums_of_const ha hane, colSums_of_const hb hbne]
    have hsum : ∀ j : Nat, ((a.map (fun t => t.getD j 0)).sum : Int) =
        (b.map (fun t => t.getD j 0)).sum :=
      fun j => (hp.map (fun t => t.getD j 0)).sum_eq
    simp only [hsum]

theorem dedup_perm_of_mem_iff {a b : List (List Int)} (h : ∀ t, t ∈ a ↔ t ∈ b) :
    a.dedup.Perm b.dedup := by
  apply (List.perm_ext_iff_of_nodup (List.nodup_dedup a) (List.nodup_dedup b)).mpr
  intro t
  simp [List.mem_dedup, h t]

/-- C6: `gen_video_code_v0` treats the frame signatures with set semantics -
two sequences of equal-arity tuples with the same set of distinct tuples
yield the same Video-Code - and for a non-empty input the digest is the WTA
hash of the column-wise sums over the distinct tuples. -/
theorem gen_video_set_semantics (wtahash : List Int → List Nat)
    (s1 s2 : List (List Int)) (k bits : Nat)
    (h1 : ∀ t ∈ s1, t.length = k) (h2 : ∀ t ∈ s2, t.length = k)
    (hset : ∀ t, t ∈ s1 ↔ t ∈ s2) :
    gen_video_code_v0 wtahash s1 bits = gen_video_code_v0 wtahash s2 bits ∧
      (s1 ≠ [] → hash_video_v0 wtahash s1 =
        wtahash ((List.range k).map
          (fun j => (s1.dedup.map (fun t => t.getD j 0)).sum))) := by
  have hd1 : ∀ t ∈ s1.dedup, t.length = k := fun t ht => h1 t (List.mem_dedup.mp ht)
  have hd2 : ∀ t ∈ s2.dedup, t.length = k := fun t ht => h2 t (List.mem_dedup.mp ht)
  have hp := dedup_perm_of_mem_iff hset
  have hcs : colSums s1.dedup = colSums s2.dedup := colSums_perm hp hd1 hd2
  constructor
  · unfold gen_video_code_v0 hash_video_v0
    rw [hcs]
  · intro hne
    unfold hash_video_v0
    have hdne : s1.dedup ≠ [] := by
      obtain ⟨x, hx⟩ := List.exists_mem_of_ne_nil s1 hne
      intro hx2
      have hmem : x ∈ s1.dedup := List.mem_dedup.mpr hx
      rw [hx2] at hmem
      simp at hmem
    rw [colSums_of_const hd1 hdne]

/-- C6 witness: two concrete signature sequences with the same distinct
tuples, in different order and multiplicity, yield the same code. -/
theorem gen_video_set_semantics_witness :
    gen_video_code_v0 (fun v => v.map Int.natAbs) [[1, 2], [3, 4], [1, 2]] 64 =
        gen_video_code_v0 (fun v => v.map Int.natAbs) [[3, 4], [1, 2]] 64 ∧
      (([[1, 2], [3, 4], [1, 2]] : List (List Int)) ≠ [] →
        hash_video_v0 (fun v => v.map Int.natAbs) [[1, 2], [3, 4], [1, 2]] =
          (fun v : List Int => v.map Int.natAbs) ((List.range 2).map
            (fun j => (([[1, 2], [3, 4], [1, 2]] : List (List Int)).dedup.map
              (fun t => t.getD j 0)).sum))) :=
  gen_video_set_semantics (fun v => v.map Int.natAbs) [[1, 2], [3, 4], [1, 2]]
    [[3, 4], [1, 2]] 2 64 (by decide) (by decide)
    (by
      intro t
      constructor <;> intro h <;> simp at h ⊢ <;> tauto)

/-- C9: the two excerpted generators validate their inputs - a well-typed
description with a bit length that is not a multiple of 32 within [32, 256]
gives `InvalidBitLength`, a description of the wrong type gives
`InvalidInput`, and the video generator rejects an invalid bit length with
`InvalidBitLength`. -/
theorem generators_error_validation (blake3 pyLower collapseText : List Nat → List Nat)
    (wtahash : List Int → List Nat) :
    (∀ name description bits, description ≠ Extra.other →
      ¬(bits % 32 = 0 ∧ 32 ≤ bits ∧ bits ≤ 256) →
      gen_meta_code_v0 blake3 pyLower collapseText name description bits =
        .error Err.invalidBitLength) ∧
    (∀ name bits,
      gen_meta_code_v0 blake3 pyLower collapseText name Extra.other bits =
        .error Err.invalidInput) ∧
    (∀ sigs bits, ¬(bits % 32 = 0 ∧ 32 ≤ bits ∧ bits ≤ 256) →
      gen_video_code_v0 wtahash sigs bits = .error Err.invalidBitLength) := by
  have hfin : ∀ name1 payload descNorm bits, descNorm ≠ Extra.other →
      ¬(bits % 32 = 0 ∧ 32 ≤ bits ∧ bits ≤ 256) →
      genMetaFinish blake3 pyLower name1 payload descNorm bits =
        .error Err.invalidBitLength := by
    intro name1 payload descNorm bits hd hb
    obtain ⟨d, hdig⟩ := soft_hash_meta_v0_isOk blake3 pyLower name1 descNorm hd
    unfold genMetaFinish
    rw [hdig, exBind_ok]
    unfold encode_component
    rw [if_neg hb]
    rfl
  refine ⟨?_, ?_, ?_⟩
  · intro name description bits hd hb
    rcases description with _ | s | b | _
    · exact hfin _ _ Extra.null bits (by simp) hb
    · rw [gen_meta_str_eq]
      by_cases hs : s = []
      · rw [if_pos hs]
        exact hfin _ _ Extra.null bits (by simp) hb
      · rw [if_neg hs]
        exact hfin _ _ (Extra.str (trim_text (collapseText s) meta_trim_extra)) bits
          (by simp) hb
    · exact hfin _ _ (Extra.bytes (b.take meta_trim_extra)) bits (by simp) hb
    · exact absurd rfl hd
  · intro name bits
    rfl
  · intro sigs bits hb
    unfold gen_video_code_v0 encode_component
    rw [if_neg hb]

/-- C9 witness: concrete invalid bit lengths and a wrongly typed description
produce the concrete errors. -/
theorem generators_error_validation_witness :
    gen_meta_code_v0 (fun l => l) (fun l => l) (fun l => l) [97] Extra.null 33 =
        .error Err.invalidBitLength ∧
      gen_meta_code_v0 (fun l => l) (fun l => l) (fun l => l) [97] Extra.other 64 =
        .error Err.invalidInput ∧
      gen_video_code_v0 (fun v => v.map Int.natAbs) [[1]] 0 =
        .error Err.invalidBitLength := by
  obtain ⟨ha, hb, hc⟩ := generators_error_validation (fun l => l) (fun l => l)
    (fun l => l) (fun v => v.map Int.natAbs)
  exact ⟨ha [97] Extra.null 33 (by simp) (by omega), hb [97] 64, hc [[1]] 0 (by omega)⟩


/-- C3 witness: the amended metahash description at a concrete name,
description and bit length. -/
theorem gen_meta_metahash_witness :
    ∃ r, gen_meta_code_v0 (fun l => l) (fun l => l) (fun l => l) [97]
        Extra.null 64 = .ok r ∧
      r.metahash = bytesToHex ((fun l : List Nat => l)
        (metaPayloadSpec (fun l => l) [97] Extra.null)) :=
  gen_meta_metahash (fun l => l) (fun l => l) (fun l => l) [97] Extra.null 64
    (by simp) (by norm_num)


/-- The merge step of the fast DCT (`dct.py` lines 33-38): even outputs are
the transformed alpha values, odd outputs pair consecutive transformed beta
values, the last odd output being the final beta value alone. -/
noncomputable def dctMerge (a b : List ℝ) (half : Nat) : List ℝ :=
  ((List.range (half - 1)).map
    (fun i => [a.getD i 0, b.getD i 0 + b.getD (i + 1) 0])).flatten ++
  [a.getD (half - 1) 0, b.getD (half - 1) 0]

/-- The alpha vector of the fast DCT (`dct.py` line 26): pairwise sums of
mirrored elements. -/
noncomputable def dctAlpha (v : List ℝ) : List ℝ :=
  (List.range (v.length / 2)).map (fun i => v.getD i 0 + v.getD (v.length - 1 - i) 0)

/-- The beta vector of the fast DCT (`dct.py` lines 27-30): scaled pairwise
differences of mirrored elements. -/
noncomputable def dctBeta (v : List ℝ) : List ℝ :=
  (List.range (v.length / 2)).map (fun i =>
    (v.getD i 0 - v.getD (v.length - 1 - i) 0) /
      (Real.cos ((i + 1 / 2) * Real.pi / v.length) * 2))

/-- `dct` (`dct.py`): Nayuki's recursive fast DCT-II over the reals.  A
vector of length one is returned unchanged; an empty or odd length raises
(`none`); otherwise the two half-length vectors alpha and beta are
transformed recursively and merged. -/
noncomputable def dct (v : List ℝ) : Option (List ℝ) :=
  if h1 : v.length = 1 then some v
  else if h2 : v.length = 0 ∨ v.length % 2 ≠ 0 then none
  else
    (dct (dctAlpha v)).bind (fun a =>
      (dct (dctBeta v)).bind (fun b =>
        some (dctMerge a b (v.length / 2))))
termination_by v.length
decreasing_by
  all_goals simp only [dctAlpha, dctBeta, List.length_map, List.length_range]
  all_goals omega

theorem dctAlpha_length (v : List ℝ) : (dctAlpha v).length = v.length / 2 := by
  simp [dctAlpha]

theorem dctBeta_length (v : List ℝ) : (dctBeta v).length = v.length / 2 := by
  simp [dctBeta]

/-- The reference DCT-II definition of the spec (section 4.4): output element
`k` is the sum over `i` of `v[i] * cos(pi * (i + 1/2) * k / n)`. -/
noncomputable def dctSpec (v : List ℝ) (k : Nat) : ℝ :=
  ∑ i ∈ Finset.range v.length,
    v.getD i 0 * Real.cos (Real.pi * (i + 1 / 2) * k / v.length)

theorem dctMerge_length (a b : List ℝ) (half : Nat) (h : 1 ≤ half) :
    (dctMerge a b half).length = 2 * half := by
  unfold dctMerge
  rw [List.length_append, List.length_flatten]
  simp only [List.map_map]
  have : ((List.range (half - 1)).map
      (List.length ∘ fun i => [a.getD i 0, b.getD i 0 + b.getD (i + 1) 0])) =
      (List.range (half - 1)).map (fun i => 2) := by
    apply List.map_congr_left
    intro i hi
    rfl
  rw [this, List.map_const', List.sum_replicate, smul_eq_mul]
  simp
  omega


theorem dct_recurse {v : List ℝ} (h1 : ¬v.length = 1)
    (h2 : ¬(v.length = 0 ∨ v.length % 2 ≠ 0)) :
    dct v = (dct (dctAlpha v)).bind (fun a =>
      (dct (dctBeta v)).bind (fun b =>
        some (dctMerge a b (v.length / 2)))) := by
  rw [dct, dif_neg h1, dif_neg h2]

/-- C7: `dct` succeeds exactly on vectors whose length is a power of two (at
least one), and a successful result has the same length as the input. -/
theorem dct_shape :
    ∀ N (v : List ℝ), v.length = N →
      (((dct v).isSome ↔ ∃ k, v.length = 2 ^ k) ∧
        (∀ w, dct v = some w → w.length = v.length)) := by
  intro N
  induction N using Nat.strong_induction_on with
  | _ N ih =>
    intro v hlen
    by_cases h1 : v.length = 1
    · have hv : dct v = some v := by rw [dct, dif_pos h1]
      constructor
      · rw [hv]
        simp only [Option.isSome_some, true_iff]
        exact ⟨0, by rw [h1, pow_zero]⟩
      · intro w hw
        rw [hv] at hw
        simp at hw
        rw [hw]
    · by_cases h2 : v.length = 0 ∨ v.length % 2 ≠ 0
      · have hv : dct v = none := by rw [dct, dif_neg h1, dif_pos h2]
        constructor
        · rw [hv]
          simp only [Option.isSome_none, Bool.false_eq_true, false_iff]
          rintro ⟨k, hk⟩
          rcases h2 with h0 | hodd
          · rw [h0] at hk
            have := pow_pos (by norm_num : (0:ℕ) < 2) k
            omega
          · match k with
            | 0 => exact h1 (by rw [hk, pow_zero])
            | k' + 1 =>
              have hp : (2:ℕ) ^ (k' + 1) = 2 ^ k' * 2 := pow_succ 2 k'
              omega
        · intro w hw
          rw [hv] at hw
          simp at hw
      · have hev : v.length % 2 = 0 := by omega
        have hn0 : v.length ≠ 0 := by omega
        have hm1 : 1 ≤ v.length / 2 := by omega
        have hmlt : v.length / 2 < N := by omega
        have hA := ih (v.length / 2) hmlt (dctAlpha v) (dctAlpha_length v)
        have hB := ih (v.length / 2) hmlt (dctBeta v) (dctBeta_length v)
        have hiffA : (dct (dctAlpha v)).isSome ↔ ∃ k, v.length / 2 = 2 ^ k := by
          have := hA.1
          rw [dctAlpha_length] at this
          exact this
        have hiffB : (dct (dctBeta v)).isSome ↔ ∃ k, v.length / 2 = 2 ^ k := by
          have := hB.1
          rw [dctBeta_length] at this
          exact this
        have heq := dct_recurse h1 h2
        constructor
        · constructor
          · intro hsome
            rcases hsA : dct (dctAlpha v) with _ | a
            · rw [heq, hsA] at hsome
              simp at hsome
            · obtain ⟨k, hk⟩ := hiffA.mp (by rw [hsA]; rfl)
              refine ⟨k + 1, ?_⟩
              have hp : (2:ℕ) ^ (k + 1) = 2 ^ k * 2 := pow_succ 2 k
              omega
          · rintro ⟨k, hk⟩
            match k with
            | 0 =>
              exact absurd (by omega : v.length = 1) h1
            | k' + 1 =>
              have hp : (2:ℕ) ^ (k' + 1) = 2 ^ k' * 2 := pow_succ 2 k'
              have hmk : v.length / 2 = 2 ^ k' := by omega
              obtain ⟨a, hsA⟩ := Option.isSome_iff_exists.mp (hiffA.mpr ⟨k', hmk⟩)
              obtain ⟨b, hsB⟩ := Option.isSome_iff_exists.mp (hiffB.mpr ⟨k', hmk⟩)
              rw [heq, hsA, hsB]
              rfl
        · intro w hw
          rw [heq] at hw
          rcases hsA : dct (dctAlpha v) with _ | a
          · rw [hsA] at hw
            simp at hw
          · rcases hsB : dct (dctBeta v) with _ | b
            · rw [hsA, hsB] at hw
              simp at hw
            · rw [hsA, hsB] at hw
              simp only [Option.some_bind, Option.some.injEq] at hw
              rw [← hw, dctMerge_length a b _ hm1]
              omega

/-- C7 witness: `dct` succeeds on a concrete vector of length two and the
result has length two. -/
theorem dct_shape_witness : (dct [(1 : ℝ), 0]).isSome := by
  have := (dct_shape 2 [(1 : ℝ), 0] rfl).1
  exact this.mpr ⟨1, by norm_num⟩


theorem getD_map_range (f : Nat → ℝ) {m i : Nat} (h : i < m) :
    ((List.range m).map f).getD i 0 = f i := by
  rw [List.getD_eq_getElem _ _ (by simpa using h)]
  simp

theorem flattenPairs_getD :
    ∀ (j : Nat) (f g : Nat → ℝ) (m : Nat), j < m →
      ((((List.range m).map (fun i => [f i, g i])).flatten).getD (2 * j) 0 = f j ∧
       (((List.range m).map (fun i => [f i, g i])).flatten).getD (2 * j + 1) 0 = g j) := by
  intro j
  induction j with
  | zero =>
    intro f g m hm
    match m with
    | m' + 1 =>
      rw [List.range_succ_eq_map, List.map_cons, List.flatten_cons]
      constructor <;> simp
  | succ j' ih =>
    intro f g m hm
    match m with
    | m' + 1 =>
      rw [List.range_succ_eq_map, List.map_cons, List.flatten_cons, List.map_map]
      have hcomp : ((fun i => [f i, g i]) ∘ Nat.succ) =
          (fun i => [f (i + 1), g (i + 1)]) := by
        funext i
        rfl
      rw [hcomp]
      have hidx : 2 * (j' + 1) = 2 * j' + 1 + 1 := by omega
      rw [hidx]
      have := ih (fun i => f (i + 1)) (fun i => g (i + 1)) m' (by omega)
      constructor
      · simpa using this.1
      · simpa using this.2

theorem dctMerge_eq_flatten {a b : List ℝ} {m : Nat} (hm : 1 ≤ m) (hb : b.length = m) :
    dctMerge a b m = ((List.range m).map
      (fun i => [a.getD i 0, b.getD i 0 + b.getD (i + 1) 0])).flatten := by
  unfold dctMerge
  conv_rhs => rw [show m = (m - 1) + 1 by omega, List.range_succ]
  rw [List.map_append, List.flatten_append]
  have h0 : b[m - 1 + 1]? = none := List.getElem?_eq_none (by omega)
  simp [List.getD, h0]

theorem cos_add_cos_eq (A B : ℝ) :
    Real.cos (A + B) + Real.cos (A - B) = 2 * Real.cos A * Real.cos B := by
  rw [Real.cos_add, Real.cos_sub]
  ring

theorem cos_two_pi_nat_sub (j : Nat) (x : ℝ) :
    Real.cos (2 * Real.pi * j - x) = Real.cos x := by
  rw [Real.cos_sub]
  have hc : Real.cos (2 * Real.pi * j) = 1 := by
    rw [show (2 : ℝ) * Real.pi * j = (j : ℝ) * (2 * Real.pi) by ring]
    exact Real.cos_nat_mul_two_pi j
  have hs : Real.sin (2 * Real.pi * j) = 0 := by
    rw [show (2 : ℝ) * Real.pi * j = ((2 * j : ℕ) : ℝ) * Real.pi by push_cast; ring]
    exact Real.sin_nat_mul_pi (2 * j)
  rw [hc, hs]
  ring

theorem cos_odd_pi_sub (j : Nat) (x : ℝ) :
    Real.cos ((2 * j + 1) * Real.pi - x) = -Real.cos x := by
  rw [show ((2 * (j : ℝ) + 1) * Real.pi - x) = 2 * Real.pi * j + (Real.pi - x) by ring]
  rw [Real.cos_add]
  have hc : Real.cos (2 * Real.pi * j) = 1 := by
    rw [show (2 : ℝ) * Real.pi * j = (j : ℝ) * (2 * Real.pi) by ring]
    exact Real.cos_nat_mul_two_pi j
  have hs : Real.sin (2 * Real.pi * j) = 0 := by
    rw [show (2 : ℝ) * Real.pi * j = ((2 * j : ℕ) : ℝ) * Real.pi by push_cast; ring]
    exact Real.sin_nat_mul_pi (2 * j)
  rw [hc, hs, Real.cos_pi_sub]
  ring

theorem sum_range_two_mul (m : Nat) (f : Nat → ℝ) :
    ∑ i ∈ Finset.range (2 * m), f i =
      ∑ i ∈ Finset.range m, f i + ∑ i ∈ Finset.range m, f (2 * m - 1 - i) := by
  have h1 : ∑ i ∈ Finset.range (2 * m), f i =
      ∑ i ∈ Finset.range m, f i + ∑ i ∈ Finset.range m, f (m + i) := by
    rw [two_mul]
    exact Finset.sum_range_add f m m
  rw [h1]
  congr 1
  rw [← Finset.sum_range_reflect (fun i => f (m + i)) m]
  apply Finset.sum_congr rfl
  intro i hi
  have him : i < m := Finset.mem_range.mp hi
  congr 1
  omega


theorem dctSpec_even {v : List ℝ} {m : Nat} (hm : 1 ≤ m) (hlen : v.length = 2 * m)
    (j : Nat) : dctSpec v (2 * j) = dctSpec (dctAlpha v) j := by
  have hm0 : (m : ℝ) ≠ 0 := Nat.cast_ne_zero.mpr (by omega)
  have hAlen : (dctAlpha v).length = m := by
    rw [dctAlpha_length, hlen]
    omega
  unfold dctSpec
  rw [hAlen, hlen, sum_range_two_mul, ← Finset.sum_add_distrib]
  apply Finset.sum_congr rfl
  intro i hi
  have him : i < m := Finset.mem_range.mp hi
  have hAi : (dctAlpha v).getD i 0 = v.getD i 0 + v.getD (v.length - 1 - i) 0 := by
    unfold dctAlpha
    exact getD_map_range _ (by rw [hlen]; omega)
  rw [hAi, hlen]
  have hcast : ((2 * m - 1 - i : ℕ) : ℝ) = 2 * m - 1 - i := by
    rw [Nat.cast_sub (by omega : i ≤ 2 * m - 1), Nat.cast_sub (by omega : 1 ≤ 2 * m)]
    push_cast
    ring
  have hZ : Real.pi * ((i : ℝ) + 1 / 2) * ((2 * j : ℕ) : ℝ) / ((2 * m : ℕ) : ℝ) =
      Real.pi * ((i : ℝ) + 1 / 2) * (j : ℝ) / (m : ℝ) := by
    push_cast
    field_simp
    ring
  have hY : Real.pi * (((2 * m - 1 - i : ℕ) : ℝ) + 1 / 2) * ((2 * j : ℕ) : ℝ) /
      ((2 * m : ℕ) : ℝ) =
      2 * Real.pi * (j : ℝ) - Real.pi * ((i : ℝ) + 1 / 2) * (j : ℝ) / (m : ℝ) := by
    rw [hcast]
    push_cast
    field_simp
    ring
  rw [hY, cos_two_pi_nat_sub, hZ]
  ring


theorem dctSpec_beta_top {v : List ℝ} {m : Nat} (hm : 1 ≤ m) (hlen : v.length = 2 * m) :
    dctSpec (dctBeta v) m = 0 := by
  have hm0 : (m : ℝ) ≠ 0 := Nat.cast_ne_zero.mpr (by omega)
  have hBlen : (dctBeta v).length = m := by
    rw [dctBeta_length, hlen]
    omega
  unfold dctSpec
  rw [hBlen]
  apply Finset.sum_eq_zero
  intro i hi
  have hc : Real.cos (Real.pi * ((i : ℝ) + 1 / 2) * (m : ℝ) / (m : ℝ)) = 0 := by
    rw [show Real.pi * ((i : ℝ) + 1 / 2) * (m : ℝ) / (m : ℝ) =
        (i : ℝ) * Real.pi + Real.pi / 2 by field_simp; ring]
    rw [Real.cos_add, Real.cos_pi_div_two, Real.sin_pi_div_two, Real.sin_nat_mul_pi]
    ring
  rw [hc, mul_zero]

theorem dctSpec_odd {v : List ℝ} {m : Nat} (hm : 1 ≤ m) (hlen : v.length = 2 * m)
    (j : Nat) :
    dctSpec v (2 * j + 1) = dctSpec (dctBeta v) j + dctSpec (dctBeta v) (j + 1) := by
  have hm0 : (m : ℝ) ≠ 0 := Nat.cast_ne_zero.mpr (by omega)
  have h2m0 : ((2 * m : ℕ) : ℝ) ≠ 0 := Nat.cast_ne_zero.mpr (by omega)
  have h2mpos : (0 : ℝ) < ((2 * m : ℕ) : ℝ) := by
    exact_mod_cast (by omega : 0 < 2 * m)
  have hBlen : (dctBeta v).length = m := by
    rw [dctBeta_length, hlen]
    omega
  unfold dctSpec
  rw [hBlen, hlen, sum_range_two_mul, ← Finset.sum_add_distrib, ← Finset.sum_add_distrib]
  apply Finset.sum_congr rfl
  intro i hi
  have him : i < m := Finset.mem_range.mp hi
  have hBi : (dctBeta v).getD i 0 = (v.getD i 0 - v.getD (v.length - 1 - i) 0) /
      (Real.cos (((i : ℝ) + 1 / 2) * Real.pi / (v.length : ℝ)) * 2) := by
    unfold dctBeta
    exact getD_map_range _ (by rw [hlen]; omega)
  rw [hBi, hlen]
  have hcast : ((2 * m - 1 - i : ℕ) : ℝ) = 2 * m - 1 - i := by
    rw [Nat.cast_sub (by omega : i ≤ 2 * m - 1), Nat.cast_sub (by omega : 1 ≤ 2 * m)]
    push_cast
    ring
  have hY : Real.pi * (((2 * m - 1 - i : ℕ) : ℝ) + 1 / 2) * ((2 * j + 1 : ℕ) : ℝ) /
      ((2 * m : ℕ) : ℝ) =
      (2 * (j : ℝ) + 1) * Real.pi -
        Real.pi * ((i : ℝ) + 1 / 2) * ((2 * j + 1 : ℕ) : ℝ) / ((2 * m : ℕ) : ℝ) := by
    rw [hcast]
    push_cast
    field_simp
    ring
  rw [hY, cos_odd_pi_sub]
  have hθpos : 0 < Real.cos (((i : ℝ) + 1 / 2) * Real.pi / ((2 * m : ℕ) : ℝ)) := by
    apply Real.cos_pos_of_mem_Ioo
    constructor
    · have h1 : 0 < ((i : ℝ) + 1 / 2) * Real.pi / ((2 * m : ℕ) : ℝ) :=
        div_pos (by positivity) h2mpos
      have := Real.pi_pos
      linarith
    · rw [show ((2 * m : ℕ) : ℝ) = 2 * (m : ℝ) by push_cast; ring]
      rw [div_lt_iff₀ (by positivity)]
      have hi2 : (i : ℝ) + 1 ≤ (m : ℝ) := by exact_mod_cast him
      nlinarith [Real.pi_pos]
  have hθ0 : Real.cos (((i : ℝ) + 1 / 2) * Real.pi / ((2 * m : ℕ) : ℝ)) ≠ 0 :=
    ne_of_gt hθpos
  have hexp : v.getD i 0 - v.getD (2 * m - 1 - i) 0 =
      ((v.getD i 0 - v.getD (2 * m - 1 - i) 0) /
        (Real.cos (((i : ℝ) + 1 / 2) * Real.pi / ((2 * m : ℕ) : ℝ)) * 2)) *
        (Real.cos (((i : ℝ) + 1 / 2) * Real.pi / ((2 * m : ℕ) : ℝ)) * 2) :=
    (div_mul_cancel₀ _ (mul_ne_zero hθ0 two_ne_zero)).symm
  have hkey : Real.cos (Real.pi * ((i : ℝ) + 1 / 2) * ((j + 1 : ℕ) : ℝ) / (m : ℝ)) +
      Real.cos (Real.pi * ((i : ℝ) + 1 / 2) * (j : ℝ) / (m : ℝ)) =
      2 * Real.cos (Real.pi * ((i : ℝ) + 1 / 2) * ((2 * j + 1 : ℕ) : ℝ) /
          ((2 * m : ℕ) : ℝ)) *
        Real.cos (((i : ℝ) + 1 / 2) * Real.pi / ((2 * m : ℕ) : ℝ)) := by
    rw [← cos_add_cos_eq]
    congr 1
    · congr 1
      push_cast
      field_simp
      ring
    · congr 1
      push_cast
      field_simp
      ring
  linear_combination
    Real.cos (Real.pi * ((i : ℝ) + 1 / 2) * ((2 * j + 1 : ℕ) : ℝ) / ((2 * m : ℕ) : ℝ)) *
        hexp -
      ((v.getD i 0 - v.getD (2 * m - 1 - i) 0) /
          (Real.cos (((i : ℝ) + 1 / 2) * Real.pi / ((2 * m : ℕ) : ℝ)) * 2)) * hkey


/-- C8: on every vector whose length is a power of two, the recursive fast
DCT succeeds and computes the DCT-II reference definition: the k-th output
element is the sum over i of `v[i] * cos(pi * (i + 1/2) * k / n)`. -/
theorem dct_computes_reference :
    ∀ (e : Nat) (v : List ℝ), v.length = 2 ^ e →
      ∃ w, dct v = some w ∧ w.length = v.length ∧
        ∀ k, k < v.length → w.getD k 0 = dctSpec v k := by
  intro e
  induction e with
  | zero =>
    intro v hlen
    rw [pow_zero] at hlen
    have hv : dct v = some v := by rw [dct, dif_pos hlen]
    refine ⟨v, hv, rfl, ?_⟩
    intro k hk
    rw [hlen] at hk
    have hk0 : k = 0 := by omega
    subst hk0
    unfold dctSpec
    rw [hlen, Finset.sum_range_one]
    norm_num
  | succ e' ihe =>
    intro v hlen
    have hp : (2 : ℕ) ^ (e' + 1) = 2 ^ e' * 2 := pow_succ 2 e'
    have hm1 : 1 ≤ 2 ^ e' := Nat.one_le_two_pow
    have hL : v.length = 2 * 2 ^ e' := by omega
    have h1 : ¬v.length = 1 := by omega
    have h2 : ¬(v.length = 0 ∨ v.length % 2 ≠ 0) := by omega
    obtain ⟨a, ha, hal, haspec⟩ := ihe (dctAlpha v) (by rw [dctAlpha_length]; omega)
    obtain ⟨b, hb, hbl, hbspec⟩ := ihe (dctBeta v) (by rw [dctBeta_length]; omega)
    have heq := dct_recurse h1 h2
    have hvm : v.length / 2 = 2 ^ e' := by omega
    have hal' : a.length = 2 ^ e' := by rw [hal, dctAlpha_length]; omega
    have hbl' : b.length = 2 ^ e' := by rw [hbl, dctBeta_length]; omega
    refine ⟨dctMerge a b (2 ^ e'), ?_, ?_, ?_⟩
    · rw [heq, ha, hb, hvm]
      rfl
    · rw [dctMerge_length a b _ hm1]
      omega
    · intro k hk
      rw [dctMerge_eq_flatten hm1 hbl']
      rcases Nat.even_or_odd k with ⟨j, hj⟩ | ⟨j, hj⟩
      · have hj2 : k = 2 * j := by omega
        have hjm : j < 2 ^ e' := by omega
        subst hj2
        rw [(flattenPairs_getD j (fun i => a.getD i 0)
          (fun i => b.getD i 0 + b.getD (i + 1) 0) (2 ^ e') hjm).1]
        rw [haspec j (by rw [dctAlpha_length]; omega)]
        exact (dctSpec_even hm1 hL j).symm
      · have hjm : j < 2 ^ e' := by omega
        subst hj
        rw [(flattenPairs_getD j (fun i => a.getD i 0)
          (fun i => b.getD i 0 + b.getD (i + 1) 0) (2 ^ e') hjm).2]
        rw [hbspec j (by rw [dctBeta_length]; omega)]
        by_cases hj1 : j + 1 < 2 ^ e'
        · rw [hbspec (j + 1) (by rw [dctBeta_length]; omega)]
          exact (dctSpec_odd hm1 hL j).symm
        · have hjm1 : j + 1 = 2 ^ e' := by omega
          have h0 : b.getD (j + 1) 0 = 0 := List.getD_eq_default _ _ (by omega)
          have hodd := dctSpec_odd hm1 hL j
          rw [hjm1] at hodd
          rw [dctSpec_beta_top hm1 hL, add_zero] at hodd
          rw [h0, add_zero, hodd]

/-- C8 witness: the fast DCT agrees with the reference definition on a
concrete vector of length two. -/
theorem dct_computes_reference_witness :
    ∃ w, dct [(1 : ℝ), 0] = some w ∧ w.length = ([(1 : ℝ), 0]).length ∧
      ∀ k, k < ([(1 : ℝ), 0]).length → w.getD k 0 = dctSpec [(1 : ℝ), 0] k :=
  dct_computes_reference 1 [(1 : ℝ), 0] (by norm_num)

end Iscc
